import Mathlib

/-!
# Verification of the `ReplaceVerifierFuns` LLVM pass

This file gives a shallow embedding of `src/transforms/ReplaceVerifierFuns.cpp`
and proves the testable properties of its specification against it.

The embedding models the LLVM IR fragment that the pass touches:

* a module is a list of functions plus a list of string globals;
* a function is a name, a declaration flag, and a body (a list of instructions);
* instructions carry an SSA result register (a `Nat`, playing the role of the
  C++ object identity of the `llvm::Instruction`) and operand `Value`s;
* newly created instructions receive registers drawn from a fresh counter that
  starts above every register and global id occurring in the input module,
  mirroring the fact that `new Instruction(...)` in C++ always yields an
  object distinct from all existing ones;
* `abort()` and failed `assert(...)` are modelled by an `Except` error result;
* the one file read is modelled by an optional list of lines
  (`none` = the file cannot be opened).
-/

set_option maxRecDepth 100000

namespace RVF

/-- LLVM types, abstracted to what the pass inspects. -/
inductive Ty where
  | i32
  | i64
  | i8ptr
  | void
  | tother (n : Nat)
  deriving DecidableEq, Repr

/-- Operand values: SSA registers, integer constants (with their type, as
`ConstantInt::get(ty, n)`), and pointers to string globals
(`ConstantExpr::getPointerCast` of a `GlobalVariable`). -/
inductive Value where
  | reg (r : Nat)
  | intConst (ty : Ty) (n : Nat)
  | globalPtr (g : Nat)
  deriving DecidableEq, Repr

/-- Instructions of the IR fragment the pass reads or creates.  Every
instruction has a result register `res` which doubles as its identity. -/
inductive Instr where
  | call (res : Nat) (callee : String) (args : List Value) (retTy : Ty)
      (dbg : Option Nat) (cattrs : List String)
  | alloca (res : Nat) (ty : Ty)
  | ptrcast (res : Nat) (src : Value)
  | load (res : Nat) (slot : Nat) (nm : String)
  | mul (res : Nat) (a b : Value)
  | iother (res : Nat) (ops : List Value)
  deriving DecidableEq, Repr

/-- A function: a name, whether it is a bodyless declaration, and its body. -/
structure Func where
  name : String
  isDecl : Bool
  body : List Instr
  deriving DecidableEq, Repr

/-- A module (the program unit): functions and string globals. -/
structure Module where
  funcs : List Func
  globals : List (Nat × String)
  deriving DecidableEq, Repr

/-- The part of `llvm::DataLayout` the pass consults. -/
structure DataLayout where
  ptrBits : Nat
  allocSize : Ty → Nat

/-- Result register of an instruction. -/
def Instr.res : Instr → Nat
  | .call r _ _ _ _ _ => r
  | .alloca r _ => r
  | .ptrcast r _ => r
  | .load r _ _ => r
  | .mul r _ _ => r
  | .iother r _ => r

/-- Operand values of an instruction (the "uses" it holds). -/
def Instr.operands : Instr → List Value
  | .call _ _ as _ _ _ => as
  | .alloca _ _ => []
  | .ptrcast _ s => [s]
  | .load _ sl _ => [.reg sl]
  | .mul _ a b => [a, b]
  | .iother _ os => os

/-- Debug line attached to an instruction (`CI->getDebugLoc()`). -/
def Instr.dbg : Instr → Option Nat
  | .call _ _ _ _ d _ => d
  | _ => none

/-- Map a register renaming over a value. -/
def Value.mapReg (σ : Nat → Nat) : Value → Value
  | .reg r => .reg (σ r)
  | .intConst t n => .intConst t n
  | .globalPtr g => .globalPtr g

/-- Map a register renaming over the operands of an instruction (the result
register is a definition, not a use, and is left unchanged — this is what
`replaceAllUsesWith` does). -/
def Instr.mapReg (σ : Nat → Nat) : Instr → Instr
  | .call r c as t d ats => .call r c (as.map (Value.mapReg σ)) t d ats
  | .alloca r t => .alloca r t
  | .ptrcast r s => .ptrcast r (s.mapReg σ)
  | .load r sl nm => .load r (σ sl) nm
  | .mul r a b => .mul r (a.mapReg σ) (b.mapReg σ)
  | .iother r os => .iother r (os.map (Value.mapReg σ))

/-- The single-register substitution used by `replaceAllUsesWith`. -/
def rauw (r l : Nat) : Nat → Nat := fun x => if x = r then l else x

/-- Registers mentioned by a value. -/
def Value.regs : Value → List Nat
  | .reg r => [r]
  | _ => []

/-- Does instruction `i` read register `r` through some operand? -/
def readsReg (r : Nat) (i : Instr) : Prop :=
  Value.reg r ∈ i.operands

instance (r : Nat) (i : Instr) : Decidable (readsReg r i) := by
  unfold readsReg; infer_instance

/-- Global ids mentioned by a value. -/
def Value.globalIds : Value → List Nat
  | .globalPtr g => [g]
  | _ => []

/-- Every number occurring in an instruction as a register (result or operand)
or as a referenced global id. -/
def Instr.ids (i : Instr) : List Nat :=
  i.res :: (i.operands.flatMap Value.regs ++ i.operands.flatMap Value.globalIds)

/-- Every register / global id occurring in a module. -/
def Module.ids (M : Module) : List Nat :=
  M.funcs.flatMap (fun f => f.body.flatMap Instr.ids) ++ M.globals.map Prod.fst

/-- A strict upper bound on every register and global id of the module; new
instructions and globals draw their identities from here on up.  (In C++ the
freshness of `new Instruction`/`new GlobalVariable` object identities is
automatic.) -/
def moduleBound (M : Module) : Nat :=
  (M.ids.foldr max 0) + 1

/-! ## The variable-name heuristic (`getName`, lines 236–256) -/

/-- `StringRef::startswith` / `std::string::compare(0, n, p) == 0`: is `p` a
prefix of `s`?  (Stated over the character lists so that it evaluates by
definitional reduction.) -/
def strStartsWith (s p : String) : Bool :=
  p.data.isPrefixOf s.data

/-- The scan of `std::istringstream >> std::string`: accumulate the current
maximal run of non-whitespace characters (in reverse) and emit it when a
whitespace character or the end of the line is reached. -/
def tokensGo : List Char → List Char → List String
  | [], cur => if cur = [] then [] else [String.mk cur.reverse]
  | ch :: rest, cur =>
    if ch.isWhitespace then
      if cur = [] then tokensGo rest []
      else String.mk cur.reverse :: tokensGo rest []
    else tokensGo rest (ch :: cur)

/-- Whitespace tokenization as performed by `std::istringstream >> std::string`:
maximal runs of non-whitespace characters, in order. -/
def tokens (s : String) : List String :=
  tokensGo s.data []

/-- The scan loop of `getName`: `var` tracks the most recent token seen before
an `"="` token; on finding `"="` with a non-empty `var`, the token right after
the `"="` must begin with `"__VERIFIER_nondet_"` for `var` to be returned;
every other outcome yields the placeholder `"--"`. -/
def getNameGo : List String → String → String
  | [], _ => "--"
  | t :: rest, var =>
    if t = "=" then
      if var ≠ "" then
        match rest with
        | [] => "--"
        | nxt :: _ => if strStartsWith nxt "__VERIFIER_nondet_" then var else "--"
      else "--"
    else getNameGo rest t

/-- `getName` (source lines 236–256): extract the assigned-to variable name
from one raw source line, or the placeholder `"--"`. -/
def getName (line : String) : String :=
  getNameGo (tokens line) ""

/-! ## Call-site collection (`runOnFunction` / `handleCall`, lines 79–122) -/

/-- Does the declared function's name match one of the recognized prefixes
(lines 84–86)? -/
def matchedDecl (f : Func) : Bool :=
  f.isDecl &&
    (strStartsWith f.name "__VERIFIER_nondet_" || strStartsWith f.name "malloc" ||
      strStartsWith f.name "calloc")

/-- Is `i` a direct call to a function named `fname`? -/
def isCallTo (fname : String) (i : Instr) : Bool :=
  match i with
  | .call _ c _ _ _ _ => c = fname
  | _ => false

/-- All direct calls to a function named `fname` anywhere in the module, in
program order.  (Models iterating the `use_list` of the declaration; only
`CallInst` users exist in this embedding, whose value domain has no
function-pointer constants.) -/
def moduleCalls (M : Module) (fname : String) : List Instr :=
  M.funcs.flatMap (fun g => g.body.filter (isCallTo fname))

/-- The `CallInst`s put on the `calls_to_replace` worklist: calls to matched
declarations whose name does not start with `"__VERIFIER"`-negated, i.e. the
nondet stubs (`ismalloc == false` in `handleCall`). -/
def nondetCallInstrs (M : Module) : List Instr :=
  (M.funcs.filter
      (fun f => matchedDecl f && strStartsWith f.name "__VERIFIER")).flatMap
    (fun f => moduleCalls M f.name)

/-- The `CallInst`s put on the `allocs_to_handle` worklist: calls to matched
declarations classified with `ismalloc == true`
(name does not start with `"__VERIFIER"`). -/
def allocCallInstrs (M : Module) : List Instr :=
  (M.funcs.filter
      (fun f => matchedDecl f && !strStartsWith f.name "__VERIFIER")).flatMap
    (fun f => moduleCalls M f.name)

/-- A worklist entry as stored by `handleCall`: the recorded line number
(`Loc.getLine()`, or `0` when the call carries no debug location) and the
call's identity (its result register). -/
def workEntry (i : Instr) : Nat × Nat :=
  (i.dbg.getD 0, i.res)

/-- `calls_to_replace` (line 41). -/
def calls_to_replace (M : Module) : List (Nat × Nat) :=
  (nondetCallInstrs M).map workEntry

/-- `allocs_to_handle` (line 42). -/
def allocs_to_handle (M : Module) : List (Nat × Nat) :=
  (allocCallInstrs M).map workEntry

/-- `lines_nums` (line 43): the set of debug lines of all collected calls that
actually carry a debug location (line 115). -/
def lines_nums (M : Module) : Finset Nat :=
  ((nondetCallInstrs M ++ allocCallInstrs M).filterMap Instr.dbg).toFinset

/-! ## Source-line indexing (`mapLines`, lines 124–149) -/

/-- Abnormal terminations of the pass: `abort()` after a failed file open, and
a failed `assert`. -/
inductive PassError where
  | cantOpen (path : String)
  | assertFail (msg : String)
  deriving DecidableEq, Repr

/-- `mapLines` (lines 124–149).  `fs` is the file system's view of the
configured source file: `none` when it cannot be opened, `some content`
otherwise, and `srcName` is the configured `source_name` option.  Returns the
sparse `lines` map (line number to raw text).  Both `assert`s of the source
are modelled as fatal. -/
def mapLines (fs : Option (List String)) (srcName : String)
    (lnums : Finset Nat) (ctr : List (Nat × Nat)) :
    Except PassError (List (Nat × String)) :=
  if lnums = ∅ then
    if ctr = [] then .ok []
    else .error (.assertFail "calls_to_replace.empty()")
  else
    match fs with
    | none => .error (.cantOpen srcName)
    | some content =>
      let lm := (content.enum.map (fun p => (p.1 + 1, p.2))).filter
        (fun p => p.1 ∈ lnums)
      if lm.length = lnums.card then .ok lm
      else .error (.assertFail "lines.size() == lines_nums.size()")

/-! ## The rewrite state and shared resources -/

/-- The mutable state of one pass invocation: the module being rewritten, the
member counter `call_identifier` (line 59), the function-local `static`
counter of `handleAlloc` (line 202), the `_vms` cache flag (line 45), and the
fresh-identity counter for newly created instructions and globals. -/
structure PassState where
  M : Module
  call_identifier : Nat
  alloc_identifier : Nat
  vms : Bool
  fresh : Nat
  deriving Repr

/-- `get_size_t` (lines 299–312): 64-bit when the pointer width exceeds 32
bits, else 32-bit.  (The `_size_t_Ty` cache is observationally invisible here
because the result depends only on the immutable `DataLayout`.) -/
def get_size_t (dl : DataLayout) : Ty :=
  if dl.ptrBits > 32 then .i64 else .i32

/-- The declaration inserted by `get_verifier_make_nondet` when absent. -/
def kleeDecl : Func :=
  { name := "klee_make_nondet", isDecl := true, body := [] }

/-- Does the module already contain a function named `klee_make_nondet`? -/
def hasKlee (M : Module) : Bool :=
  M.funcs.any (fun f => f.name = "klee_make_nondet")

/-- `get_verifier_make_nondet` (lines 279–297): on first use
(`vms = false`), `getOrInsertFunction` finds an existing declaration or
appends a new one; afterwards the cached declaration is reused and the module
is untouched. -/
def get_verifier_make_nondet (M : Module) (vms : Bool) : Module × Bool :=
  if vms then (M, true)
  else if hasKlee M then (M, true)
  else ({ M with funcs := M.funcs ++ [kleeDecl] }, true)

/-- Replace the first instruction satisfying `p` by the list `news`, keeping
everything else in place.  Models an `insertBefore`/`insertAfter` sequence
around one specific instruction followed by (for the nondet case) its
`eraseFromParent`. -/
def replaceAt (p : Instr → Bool) (news : List Instr) : List Instr → List Instr
  | [] => []
  | i :: rest => if p i then news ++ rest else i :: replaceAt p news rest

/-- Locate the instruction with result register `r` together with the name of
its enclosing function (`CI->getParent()->getParent()`); models dereferencing
the worklist's `CallInst *`. -/
def findInstr (M : Module) (r : Nat) : Option (String × Instr) :=
  M.funcs.findSome? (fun f =>
    (f.body.find? (fun i => i.res = r)).map (fun i => (f.name, i)))

/-- Map a register renaming over every instruction of every function body. -/
def Module.mapReg (σ : Nat → Nat) (M : Module) : Module :=
  { M with funcs := M.funcs.map (fun f => { f with body := f.body.map (Instr.mapReg σ) }) }

/-- Rewrite one function body inside the module. -/
def Module.editBody (M : Module) (fname : String) (e : List Instr → List Instr) : Module :=
  { M with funcs := M.funcs.map (fun f => if f.name = fname then { f with body := e f.body } else f) }

/-! ## `replaceCall` (lines 151–198) and `replaceCalls` (lines 258–267) -/

/-- The derived name `"<parent>:<var>:<line>"` (lines 154 and 204). -/
def mkName (parent var : String) (line : Nat) : String :=
  parent ++ ":" ++ var ++ ":" ++ toString line

/-- The instruction sequence spliced in place of a nondet call of type `T`:
`AllocaInst`, pointer cast, call to `klee_make_nondet`, and the load that
takes over the original call's uses (lines 159–195).  `base` is the block of
five fresh identities consumed (`base` = name global, `base+1` = alloca,
`base+2` = cast, `base+3` = new call, `base+4` = load). -/
def nondetSeg (dl : DataLayout) (T : Ty) (cattrs : List String)
    (dbg : Option Nat) (name : String) (base ident : Nat) : List Instr :=
  [.alloca (base + 1) T,
   .ptrcast (base + 2) (.reg (base + 1)),
   .call (base + 3) "klee_make_nondet"
     [.reg (base + 2),
      .intConst (get_size_t dl) (dl.allocSize T),
      .globalPtr base,
      .intConst .i32 ident]
     .void dbg cattrs,
   .load (base + 4) (base + 1) name]

/-- `replaceCall` (lines 151–198): build the name global and the replacement
sequence, splice it where the original call stood, redirect every use of the
original call's result to the new load, and erase the original call. -/
def replaceCall (dl : DataLayout) (st : PassState) (line : Nat)
    (var : String) (r : Nat) : PassState :=
  match findInstr st.M r with
  | some (parent, .call _ _ _ T dbg cattrs) =>
    let name := mkName parent var line
    let base := st.fresh
    let l := base + 4
    let (M1, vms1) := get_verifier_make_nondet st.M st.vms
    let seg := nondetSeg dl T cattrs dbg name base (st.call_identifier + 1)
    let M2 := { M1.editBody parent (replaceAt (fun i => i.res = r) seg) with
                globals := M1.globals ++ [(base, name)] }
    let M3 := M2.mapReg (rauw r l)
    { M := M3, call_identifier := st.call_identifier + 1,
      alloc_identifier := st.alloc_identifier, vms := vms1, fresh := base + 5 }
  | _ => st

/-- The variable name passed to `replaceCall` for a worklist entry
(line 263–265): empty when the recorded line is not in the `lines` map, else
`getName` of the indexed text. -/
def varOf (lm : List (Nat × String)) (line : Nat) : String :=
  match lm.lookup line with
  | some txt => getName txt
  | none => ""

/-- `replaceCalls` (lines 258–267): rewrite each collected nondet call in
worklist order. -/
def replaceCalls (dl : DataLayout) (lm : List (Nat × String))
    (st : PassState) : List (Nat × Nat) → PassState
  | [] => st
  | (line, r) :: rest =>
    replaceCalls dl lm (replaceCall dl st line (varOf lm line) r) rest

/-! ## `handleAlloc` (lines 200–234) and `handleAllocs` (lines 269–277) -/

/-- The instructions inserted right after an allocation call with current
arguments `args` and result `r`: the optional `Mul` (only when the callee is
named exactly `"calloc"`, line 216), the pointer cast of the returned
pointer, and the registration call.  `base` is the block of four fresh
identities consumed (`base` = name global, `base+1` = mul, `base+2` = cast,
`base+3` = new call). -/
def allocSeg (callee : String) (args : List Value) (r : Nat)
    (base ident : Nat) : List Instr :=
  (if callee = "calloc" then
    [Instr.mul (base + 1) (args.getD 0 (.intConst .i32 0))
      (args.getD 1 (.intConst .i32 0))]
   else []) ++
  [.ptrcast (base + 2) (.reg r),
   .call (base + 3) "klee_make_nondet"
     [.reg (base + 2),
      (if callee = "calloc" then Value.reg (base + 1)
       else args.getD 0 (.intConst .i32 0)),
      .globalPtr base,
      .intConst .i32 ident]
     .void none []]

/-- `handleAlloc` (lines 200–234): build the name global, insert the cast,
the optional `Mul` and the registration call after the original allocation
call, which itself stays in place untouched. -/
def handleAlloc (st : PassState) (line : Nat) (var : String) (r : Nat) :
    PassState :=
  match findInstr st.M r with
  | some (parent, .call _ callee args T dbg cattrs) =>
    let name := mkName parent var line
    let base := st.fresh
    let (M1, vms1) := get_verifier_make_nondet st.M st.vms
    let seg := Instr.call r callee args T dbg cattrs ::
      allocSeg callee args r base (st.alloc_identifier + 1)
    let M2 := { M1.editBody parent (replaceAt (fun i => i.res = r) seg) with
                globals := M1.globals ++ [(base, name)] }
    { M := M2, call_identifier := st.call_identifier,
      alloc_identifier := st.alloc_identifier + 1, vms := vms1,
      fresh := base + 4 }
  | _ => st

/-- `handleAllocs` (lines 269–277): augment each collected allocation call in
worklist order; the variable segment of the derived name is always the
literal `"dynalloc"`. -/
def handleAllocs (st : PassState) : List (Nat × Nat) → PassState
  | [] => st
  | (line, r) :: rest => handleAllocs (handleAlloc st line "dynalloc" r) rest

/-! ## `runOnModule` (lines 68–76) -/

/-- `runOnModule`: collect every call site (read-only), index the referenced
source lines (possibly aborting), then rewrite.  `alloc_static` is the value
the `static` counter of `handleAlloc` holds when the invocation starts (`0`
in a fresh process).  Returns the rewritten module and the changed flag
(line 75). -/
def initState (alloc_static : Nat) (M : Module) : PassState :=
  { M := M, call_identifier := 0, alloc_identifier := alloc_static,
    vms := false, fresh := moduleBound M }

def runOnModule (dl : DataLayout) (fs : Option (List String))
    (srcName : String) (alloc_static : Nat) (M : Module) :
    Except PassError (Module × Bool) :=
  let ctr := calls_to_replace M
  let ath := allocs_to_handle M
  match mapLines fs srcName (lines_nums M) ctr with
  | .error e => .error e
  | .ok lm =>
    let st0 : PassState :=
      { M := M, call_identifier := 0, alloc_identifier := alloc_static,
        vms := false, fresh := moduleBound M }
    let st1 := replaceCalls dl lm st0 ctr
    let st2 := handleAllocs st1 ath
    .ok (st2.M, !ctr.isEmpty || !ath.isEmpty)

/-! ## Well-formedness of the input module

`res_nodup` is SSA uniqueness of instruction identities (in C++ this is the
distinctness of `llvm::Instruction` object addresses); `names_nodup` says
function names are unique in the module, as LLVM's symbol table guarantees. -/

/-- All instruction occurrences of the module, in program order. -/
def occs (M : Module) : List Instr :=
  M.funcs.flatMap Func.body

/-- All result registers of the module, in program order. -/
def allRes (M : Module) : List Nat :=
  (occs M).map Instr.res

/-- Well-formed module: distinct instruction identities and distinct function
names. -/
def WF (M : Module) : Prop :=
  (allRes M).Nodup ∧ (M.funcs.map Func.name).Nodup

instance (M : Module) : Decidable (WF M) := by
  unfold WF; infer_instance

/-! ## Closed-form description of the rewrite

The next definitions give a recurrence-free description of the pass's effect,
proved below (`runOnModule_eq_runSpec`) to coincide with the step-wise
implementation on well-formed modules.  The parameter `k` (resp. `j`) is the
number of worklist entries already processed, so `k = 0` is the initial
module and `k = N` the state after `replaceCalls`. -/

/-- Position of the nondet worklist entry owning register `r`. -/
def nondetIdx (M : Module) (r : Nat) : Option Nat :=
  (calls_to_replace M).findIdx? (fun e => e.2 = r)

/-- Position of the alloc worklist entry owning register `r`. -/
def allocIdx (M : Module) (r : Nat) : Option Nat :=
  (allocs_to_handle M).findIdx? (fun e => e.2 = r)

/-- First fresh identity consumed by the `j`-th nondet rewrite. -/
def nondetBase (M : Module) (j : Nat) : Nat :=
  moduleBound M + 5 * j

/-- First fresh identity consumed by the `j`-th alloc rewrite. -/
def allocBase (M : Module) (j : Nat) : Nat :=
  moduleBound M + 5 * (calls_to_replace M).length + 4 * j

/-- The accumulated `replaceAllUsesWith` renaming after the first `k` nondet
rewrites: the result of the `j`-th collected nondet call (`j < k`) is now the
`j`-th new load, everything else is untouched. -/
def nondetSigmaK (M : Module) (k : Nat) : Nat → Nat := fun x =>
  match nondetIdx M x with
  | some j => if j < k then nondetBase M j + 4 else x
  | none => x

/-- The complete renaming applied by `replaceCalls`. -/
def nondetSigma (M : Module) : Nat → Nat :=
  nondetSigmaK M (calls_to_replace M).length

/-- Enclosing function name of the instruction with result `r`. -/
def parentOf (M : Module) (r : Nat) : String :=
  match findInstr M r with
  | some (p, _) => p
  | none => ""

/-- Effect of the first `k` nondet rewrites on one original instruction of
function `fname`: an already-processed collected call becomes its
replacement sequence; everything else survives with renamed operands. -/
def transNondetK (dl : DataLayout) (lm : List (Nat × String)) (M : Module)
    (k : Nat) (fname : String) (i : Instr) : List Instr :=
  match nondetIdx M i.res with
  | some j =>
    match i with
    | .call _ _ _ T dbg cattrs =>
      if j < k then
        nondetSeg dl T cattrs dbg
          (mkName fname (varOf lm (dbg.getD 0)) (dbg.getD 0))
          (nondetBase M j) (j + 1)
      else [i.mapReg (nondetSigmaK M k)]
    | _ => [i.mapReg (nondetSigmaK M k)]
  | none => [i.mapReg (nondetSigmaK M k)]

/-- Name globals created by the first `k` nondet rewrites. -/
def nondetGlobalsK (lm : List (Nat × String)) (M : Module) (k : Nat) :
    List (Nat × String) :=
  ((calls_to_replace M).take k).enum.map
    (fun p => (nondetBase M p.1, mkName (parentOf M p.2.2) (varOf lm p.2.1) p.2.1))

/-- The registration-function declaration appended by the nondet phase. -/
def appendNondetK (M : Module) (k : Nat) : List Func :=
  if k != 0 && !hasKlee M then [kleeDecl] else []

/-- Functions after the first `k` nondet rewrites. -/
def funcsNondetK (dl : DataLayout) (lm : List (Nat × String)) (M : Module)
    (k : Nat) : List Func :=
  M.funcs.map (fun f => { f with body := f.body.flatMap (transNondetK dl lm M k f.name) })
    ++ appendNondetK M k

/-- The module after the first `k` nondet rewrites. -/
def moduleNondetK (dl : DataLayout) (lm : List (Nat × String)) (M : Module)
    (k : Nat) : Module :=
  { funcs := funcsNondetK dl lm M k, globals := M.globals ++ nondetGlobalsK lm M k }

/-- The full pass state after the first `k` nondet rewrites. -/
def stateNondetK (dl : DataLayout) (lm : List (Nat × String))
    (alloc_static : Nat) (M : Module) (k : Nat) : PassState :=
  { M := moduleNondetK dl lm M k, call_identifier := k,
    alloc_identifier := alloc_static, vms := k != 0, fresh := nondetBase M k }

/-- Effect of the first `j` alloc rewrites on one instruction of the module
left by `replaceCalls`: an already-processed collected allocation call keeps
its place and grows its instrumentation suffix; everything else is
untouched. -/
def transAllocJ (M : Module) (alloc_static : Nat) (j : Nat) (i : Instr) :
    List Instr :=
  match allocIdx M i.res with
  | some j' =>
    match i with
    | .call r callee args _ _ _ =>
      if j' < j then
        i :: allocSeg callee args r (allocBase M j') (alloc_static + j' + 1)
      else [i]
    | _ => [i]
  | none => [i]

/-- Name globals created by the first `j` alloc rewrites. -/
def allocGlobalsJ (M : Module) (j : Nat) : List (Nat × String) :=
  ((allocs_to_handle M).take j).enum.map
    (fun p => (allocBase M p.1, mkName (parentOf M p.2.2) "dynalloc" p.2.1))

/-- The registration-function declaration appended by the alloc phase (only
when the nondet phase ran on an empty worklist). -/
def appendAllocJ (M : Module) (j : Nat) : List Func :=
  if (calls_to_replace M).isEmpty && j != 0 && !hasKlee M then [kleeDecl] else []

/-- Functions after all nondet rewrites and the first `j` alloc rewrites. -/
def funcsAllocJ (dl : DataLayout) (lm : List (Nat × String))
    (alloc_static : Nat) (M : Module) (j : Nat) : List Func :=
  (funcsNondetK dl lm M (calls_to_replace M).length).map
      (fun f => { f with body := f.body.flatMap (transAllocJ M alloc_static j) })
    ++ appendAllocJ M j

/-- The module after all nondet rewrites and the first `j` alloc rewrites. -/
def moduleAllocJ (dl : DataLayout) (lm : List (Nat × String))
    (alloc_static : Nat) (M : Module) (j : Nat) : Module :=
  { funcs := funcsAllocJ dl lm alloc_static M j,
    globals := M.globals ++ nondetGlobalsK lm M (calls_to_replace M).length
      ++ allocGlobalsJ M j }

/-- The full pass state after all nondet rewrites and `j` alloc rewrites. -/
def stateAllocJ (dl : DataLayout) (lm : List (Nat × String))
    (alloc_static : Nat) (M : Module) (j : Nat) : PassState :=
  { M := moduleAllocJ dl lm alloc_static M j,
    call_identifier := (calls_to_replace M).length,
    alloc_identifier := alloc_static + j,
    vms := !(calls_to_replace M).isEmpty || j != 0,
    fresh := allocBase M j }

/-- The final rewritten module, in closed form. -/
def specModule (dl : DataLayout) (lm : List (Nat × String))
    (alloc_static : Nat) (M : Module) : Module :=
  moduleAllocJ dl lm alloc_static M (allocs_to_handle M).length

/-- Closed-form description of the whole pass run. -/
def runSpec (dl : DataLayout) (fs : Option (List String)) (srcName : String)
    (alloc_static : Nat) (M : Module) : Except PassError (Module × Bool) :=
  match mapLines fs srcName (lines_nums M) (calls_to_replace M) with
  | .error e => .error e
  | .ok lm =>
    .ok (specModule dl lm alloc_static M,
      !(calls_to_replace M).isEmpty || !(allocs_to_handle M).isEmpty)

/-! ## Vocabulary for the claim statements -/

/-- Is the instruction a call at all? -/
def Instr.isCall : Instr → Bool
  | .call _ _ _ _ _ _ => true
  | _ => false

/-- The registers an instruction reads. -/
def Instr.operandRegs (i : Instr) : List Nat :=
  i.operands.flatMap Value.regs

/-- The declarative assignment pattern recognized by `getName`: the token
list splits as `pre ++ "=" :: w :: post` where `pre` is non-empty,
`"="`-free, and `w` carries the nondet-stub prefix; the recognized variable
is then the last token of `pre`. -/
def recognizedAssign (ts : List String) (v : String) : Prop :=
  ∃ pre w post, ts = pre ++ "=" :: w :: post ∧ "=" ∉ pre ∧ pre ≠ [] ∧
    strStartsWith w "__VERIFIER_nondet_" = true ∧ pre.getLast? = some v

/-- Is the instruction a `Mul`? -/
def Instr.isMul : Instr → Bool
  | .mul _ _ _ => true
  | _ => false

/-! ## Concrete inputs used by the witnesses and counterexamples -/

/-- A 64-bit data layout in which every first-class type occupies 4 bytes. -/
def dl0 : DataLayout :=
  { ptrBits := 64, allocSize := fun _ => 4 }

/-- One nondet stub declaration plus `foo` calling it at line 10, with one
consumer of the nondet value. -/
def wmNondet : Module :=
  { funcs := [
      { name := "__VERIFIER_nondet_int", isDecl := true, body := [] },
      { name := "foo", isDecl := false, body := [
          .call 1 "__VERIFIER_nondet_int" [] .i32 (some 10) ["zeroext"],
          .iother 2 [.reg 1, .intConst .i32 7] ] } ],
    globals := [] }

/-- Source text whose line 10 reads `int x = __VERIFIER_nondet_int();`. -/
def wfsNondet : Option (List String) :=
  some (List.replicate 9 "z" ++ ["int x = __VERIFIER_nondet_int();"])

/-- A mixed module: a nondet call at line 5 feeding a `malloc` at line 20,
plus a `calloc` at line 30. -/
def wmMixed : Module :=
  { funcs := [
      { name := "malloc", isDecl := true, body := [] },
      { name := "calloc", isDecl := true, body := [] },
      { name := "__VERIFIER_nondet_uint", isDecl := true, body := [] },
      { name := "bar", isDecl := false, body := [
          .call 7 "__VERIFIER_nondet_uint" [] .i32 (some 5) [],
          .call 1 "malloc" [.reg 7] .i8ptr (some 20) [],
          .call 2 "calloc" [.reg 5, .intConst .i64 8] .i8ptr (some 30) [],
          .iother 3 [.reg 1, .reg 2, .reg 7] ] } ],
    globals := [(0, "old")] }

/-- Source text for `wmMixed` (lines 5, 20 and 30 are referenced). -/
def wfsMixed : Option (List String) :=
  some (List.replicate 4 "w" ++ ["unsigned n = __VERIFIER_nondet_uint();"]
    ++ List.replicate 14 "x" ++ ["p = malloc(n);"]
    ++ List.replicate 9 "y" ++ ["buf = calloc(n, 8);"])

/-- A declaration whose name merely starts with the `calloc` prefix, called
with two arguments (3 and 5): collected as an allocation site by the prefix
match, but not named exactly `calloc`. -/
def wmCallocPrefix : Module :=
  { funcs := [
      { name := "callocX", isDecl := true, body := [] },
      { name := "f", isDecl := false, body := [
          .call 1 "callocX" [.intConst .i32 3, .intConst .i32 5] .i8ptr none [] ] } ],
    globals := [] }

/-- A module whose single collected site is a nondet call carrying no debug
line at all. -/
def wmNoLine : Module :=
  { funcs := [
      { name := "__VERIFIER_nondet_int", isDecl := true, body := [] },
      { name := "foo", isDecl := false, body := [
          .call 1 "__VERIFIER_nondet_int" [] .i32 none [] ] } ],
    globals := [] }

/-- A module whose single collected site is a `malloc` call carrying no
debug line. -/
def wmAllocNoLine : Module :=
  { funcs := [
      { name := "malloc", isDecl := true, body := [] },
      { name := "g", isDecl := false, body := [
          .call 1 "malloc" [.intConst .i64 8] .i8ptr none [] ] } ],
    globals := [] }

/-- A nondet call at line 2 whose referenced source line holds no
assignment. -/
def wmNoAssign : Module :=
  { funcs := [
      { name := "__VERIFIER_nondet_int", isDecl := true, body := [] },
      { name := "f", isDecl := false, body := [
          .call 1 "__VERIFIER_nondet_int" [] .i32 (some 2) [] ] } ],
    globals := [] }

/-- Source text whose line 2 reads `foo();` — no assignment to recognize. -/
def wfsNoAssign : Option (List String) :=
  some ["int main() ;", "foo();"]

/-- The `lines` map `mapLines` builds for `wmNondet` from `wfsNondet`. -/
def lmNondet : List (Nat × String) := [(10, "int x = __VERIFIER_nondet_int();")]

/-- The module `runOnModule` produces from `wmNondet`. -/
def outNondet : Module := specModule dl0 lmNondet 0 wmNondet

/-- The `lines` map `mapLines` builds for `wmMixed` from `wfsMixed`. -/
def lmMixed : List (Nat × String) :=
  [(5, "unsigned n = __VERIFIER_nondet_uint();"), (20, "p = malloc(n);"),
   (30, "buf = calloc(n, 8);")]

/-- The module `runOnModule` produces from `wmMixed`. -/
def outMixed : Module := specModule dl0 lmMixed 0 wmMixed

/-- The module `runOnModule` produces from `wmCallocPrefix` (no referenced
lines, so the `lines` map is empty). -/
def outCallocPrefix : Module := specModule dl0 [] 0 wmCallocPrefix

/-- The `lines` map `mapLines` builds for `wmNoAssign` from `wfsNoAssign`. -/
def lmNoAssign : List (Nat × String) := [(2, "foo();")]

/-- The module `runOnModule` produces from `wmNoAssign`. -/
def outNoAssign : Module := specModule dl0 lmNoAssign 0 wmNoAssign

/-- The module `runOnModule` produces from `wmAllocNoLine` (its only
collected site carries no debug line, so the `lines` map is empty). -/
def outAllocNoLine : Module := specModule dl0 [] 0 wmAllocNoLine

/-- Per-function form of the nondet-phase transform. -/
def transNF (dl : DataLayout) (lm : List (Nat × String)) (M : Module)
    (k : Nat) (f' : Func) : Func :=
  { f' with body := f'.body.flatMap (transNondetK dl lm M k f'.name) }

/-- Per-function form of the alloc-phase transform. -/
def transAF (M : Module) (alloc_static j : Nat) (f' : Func) : Func :=
  { f' with body := f'.body.flatMap (transAllocJ M alloc_static j) }

/-! # Proof layer

## Basic facts about values, instructions and register renamings -/

theorem Value.mapReg_comp_value (σ₁ σ₂ : Nat → Nat) (v : Value) :
    (v.mapReg σ₁).mapReg σ₂ = v.mapReg (σ₂ ∘ σ₁) := by
  cases v <;> rfl

theorem Instr.mapReg_comp (σ₁ σ₂ : Nat → Nat) (i : Instr) :
    (i.mapReg σ₁).mapReg σ₂ = i.mapReg (σ₂ ∘ σ₁) := by
  cases i <;>
    simp [Instr.mapReg, Value.mapReg_comp_value, List.map_map, Function.comp_def]

@[simp] theorem Instr.res_mapReg (σ : Nat → Nat) (i : Instr) :
    (i.mapReg σ).res = i.res := by
  cases i <;> rfl

@[simp] theorem Instr.dbg_mapReg (σ : Nat → Nat) (i : Instr) :
    (i.mapReg σ).dbg = i.dbg := by
  cases i <;> rfl

theorem Value.mapReg_congr_value {σ₁ σ₂ : Nat → Nat} {v : Value}
    (h : ∀ x ∈ v.regs, σ₁ x = σ₂ x) : v.mapReg σ₁ = v.mapReg σ₂ := by
  cases v with
  | reg r => simp [Value.mapReg, h r (by simp [Value.regs])]
  | intConst t n => rfl
  | globalPtr g => rfl

theorem Instr.mapReg_congr {σ₁ σ₂ : Nat → Nat} {i : Instr}
    (h : ∀ x ∈ i.operandRegs, σ₁ x = σ₂ x) : i.mapReg σ₁ = i.mapReg σ₂ := by
  cases i with
  | call r c as T d ats =>
    simp only [Instr.mapReg, Instr.call.injEq, true_and, and_true]
    refine List.map_congr_left (fun v hv => Value.mapReg_congr_value (fun x hx => ?_))
    exact h x (by
      simp [Instr.operandRegs, Instr.operands, List.mem_flatMap]
      exact ⟨v, hv, hx⟩)
  | alloca r t => rfl
  | ptrcast r s =>
    simp only [Instr.mapReg, Instr.ptrcast.injEq, true_and]
    exact Value.mapReg_congr_value (fun x hx => h x (by
      simp [Instr.operandRegs, Instr.operands, List.mem_flatMap]
      exact hx))
  | load r sl nm =>
    simp only [Instr.mapReg, Instr.load.injEq, true_and]
    have := h sl (by simp [Instr.operandRegs, Instr.operands, Value.regs])
    simp [this]
  | mul r a b =>
    simp only [Instr.mapReg, Instr.mul.injEq, true_and]
    constructor
    · exact Value.mapReg_congr_value (fun x hx => h x (by
        simp [Instr.operandRegs, Instr.operands, List.mem_flatMap]
        exact Or.inl hx))
    · exact Value.mapReg_congr_value (fun x hx => h x (by
        simp [Instr.operandRegs, Instr.operands, List.mem_flatMap]
        exact Or.inr hx))
  | iother r os =>
    simp only [Instr.mapReg, Instr.iother.injEq, true_and]
    refine List.map_congr_left (fun v hv => Value.mapReg_congr_value (fun x hx => ?_))
    exact h x (by
      simp [Instr.operandRegs, Instr.operands, List.mem_flatMap]
      exact ⟨v, hv, hx⟩)

theorem Value.mapReg_id_value (v : Value) : v.mapReg (fun x => x) = v := by
  cases v <;> rfl

theorem Value.mapReg_id_fun : Value.mapReg (fun x => x) = id :=
  funext Value.mapReg_id_value

theorem Instr.mapReg_id (i : Instr) : i.mapReg (fun x => x) = i := by
  cases i <;> simp [Instr.mapReg, Value.mapReg_id_value, Value.mapReg_id_fun]

/-! ## Computation rules for `replaceAt` -/

theorem replaceAt_append_left {p : Instr → Bool} {news l₂ : List Instr}
    (l₁ : List Instr) (h : ∀ x ∈ l₁, p x = false) :
    replaceAt p news (l₁ ++ l₂) = l₁ ++ replaceAt p news l₂ := by
  induction l₁ with
  | nil => rfl
  | cons a l ih =>
    simp only [List.cons_append, replaceAt, h a (List.mem_cons_self a l)]
    simp only [Bool.false_eq_true, if_false, List.cons.injEq, true_and]
    exact ih (fun x hx => h x (List.mem_cons_of_mem a hx))

theorem replaceAt_cons_of {p : Instr → Bool} {news l : List Instr} {i : Instr}
    (h : p i = true) : replaceAt p news (i :: l) = news ++ l := by
  simp [replaceAt, h]

/-! ## `findIdx?` and `enumFrom` helpers -/

theorem findIdx?_append_cons {α : Type} (p : α → Bool) (l₁ l₂ : List α) (e : α)
    (h₁ : ∀ x ∈ l₁, p x = false) (h₂ : p e = true) :
    ∀ s, (l₁ ++ e :: l₂).findIdx? p s = some (s + l₁.length) := by
  induction l₁ with
  | nil => intro s; simp [List.findIdx?_cons, h₂]
  | cons a l ih =>
    intro s
    simp only [List.cons_append, List.findIdx?_cons,
      h₁ a (List.mem_cons_self a l), Bool.false_eq_true, if_false]
    have := ih (fun x hx => h₁ x (List.mem_cons_of_mem a hx)) (s + 1)
    rw [this]
    simp [List.length_cons]
    omega

theorem enumFrom_append_singleton {α : Type} (l : List α) (e : α) :
    ∀ n, (l ++ [e]).enumFrom n = l.enumFrom n ++ [(n + l.length, e)] := by
  induction l with
  | nil => intro n; simp
  | cons a as ih =>
    intro n
    simp only [List.cons_append, List.enumFrom_cons, ih (n + 1),
      List.length_cons]
    simp only [List.cons.injEq, true_and, List.append_cancel_left_eq,
      List.cons.injEq, Prod.mk.injEq, and_true, true_and]
    omega

theorem take_succ_of_drop {α : Type} {l : List α} {k : Nat} {e : α}
    {rest : List α} (h : l.drop k = e :: rest) :
    l.take (k + 1) = l.take k ++ [e] := by
  have h1 : l.take (k + 1) = l.take k ++ (l.drop k).take 1 := by
    rw [List.take_add]
  rw [h1, h]
  rfl

theorem drop_succ_of_drop {α : Type} {l : List α} {k : Nat} {e : α}
    {rest : List α} (h : l.drop k = e :: rest) :
    l.drop (k + 1) = rest := by
  rw [← List.drop_drop, h]
  rfl

/-! ## Shape facts for the synthesized sequences -/

theorem nondetSeg_res_bounds {dl : DataLayout} {T : Ty} {cattrs : List String}
    {dbg : Option Nat} {nm : String} {base ident : Nat} :
    ∀ i' ∈ nondetSeg dl T cattrs dbg nm base ident,
      base + 1 ≤ i'.res ∧ i'.res ≤ base + 4 := by
  intro i' h
  simp only [nondetSeg, List.mem_cons, List.not_mem_nil, or_false] at h
  rcases h with h | h | h | h <;> subst h <;> refine ⟨?_, ?_⟩ <;>
    simp only [Instr.res] <;> omega

theorem nondetSeg_mapReg {dl : DataLayout} {T : Ty} {cattrs : List String}
    {dbg : Option Nat} {nm : String} {base ident : Nat} {σ : Nat → Nat}
    (h1 : σ (base + 1) = base + 1) (h2 : σ (base + 2) = base + 2) :
    (nondetSeg dl T cattrs dbg nm base ident).map (Instr.mapReg σ) =
      nondetSeg dl T cattrs dbg nm base ident := by
  simp [nondetSeg, Instr.mapReg, Value.mapReg, h1, h2]

theorem allocSeg_res_bounds {callee : String} {args : List Value} {r : Nat}
    {base ident : Nat} :
    ∀ i' ∈ allocSeg callee args r base ident,
      base + 1 ≤ i'.res ∧ i'.res ≤ base + 3 := by
  intro i' h
  simp only [allocSeg] at h
  by_cases hc : callee = "calloc" <;>
    simp only [hc, if_true, if_false, List.cons_append, List.nil_append,
      List.mem_cons, List.not_mem_nil, or_false, reduceIte] at h
  · rcases h with h | h | h <;> subst h <;> refine ⟨?_, ?_⟩ <;>
      simp only [Instr.res] <;> omega
  · rcases h with h | h <;> subst h <;> refine ⟨?_, ?_⟩ <;>
      simp only [Instr.res] <;> omega

/-! ## Consequences of well-formedness -/

theorem mem_occs {M : Module} {f : Func} {i : Instr}
    (hf : f ∈ M.funcs) (hi : i ∈ f.body) : i ∈ occs M := by
  simp only [occs, List.mem_flatMap]
  exact ⟨f, hf, hi⟩

theorem mem_of_mem_nondetCallInstrs {M : Module} {i : Instr}
    (h : i ∈ nondetCallInstrs M) : i ∈ occs M ∧ i.isCall = true := by
  simp only [nondetCallInstrs, List.mem_flatMap, List.mem_filter] at h
  obtain ⟨f, _, hi⟩ := h
  simp only [moduleCalls, List.mem_flatMap, List.mem_filter] at hi
  obtain ⟨g, hg, hig, hcall⟩ := hi
  refine ⟨mem_occs hg hig, ?_⟩
  cases i <;> simp_all [isCallTo, Instr.isCall]

theorem mem_of_mem_allocCallInstrs {M : Module} {i : Instr}
    (h : i ∈ allocCallInstrs M) : i ∈ occs M ∧ i.isCall = true := by
  simp only [allocCallInstrs, List.mem_flatMap, List.mem_filter] at h
  obtain ⟨f, _, hi⟩ := h
  simp only [moduleCalls, List.mem_flatMap, List.mem_filter] at hi
  obtain ⟨g, hg, hig, hcall⟩ := hi
  refine ⟨mem_occs hg hig, ?_⟩
  cases i <;> simp_all [isCallTo, Instr.isCall]

theorem moduleCalls_eq_filter (M : Module) (n : String) :
    moduleCalls M n = (occs M).filter (isCallTo n) := by
  simp [moduleCalls, occs, List.filter_flatMap]

theorem count_flatMap_filter {x : Instr} (cs : List Instr) :
    ∀ ds : List Func,
      (ds.flatMap (fun f => cs.filter (isCallTo f.name))).count x =
        (ds.countP (fun f => isCallTo f.name x)) * cs.count x := by
  intro ds
  induction ds with
  | nil => simp
  | cons f fs ih =>
    simp only [List.flatMap_cons, List.count_append, ih, List.countP_cons]
    by_cases hc : isCallTo f.name x = true
    · rw [List.count_filter hc]
      simp only [hc, if_true]
      ring
    · have h0 : (cs.filter (isCallTo f.name)).count x = 0 := by
        rw [List.count_eq_zero]
        intro hmem
        exact hc (List.mem_filter.mp hmem).2
      simp only [h0, Nat.zero_add, hc, if_false]
      simp

theorem countP_split_le {p q₁ q₂ : Func → Bool}
    (hdisj : ∀ f, ¬(q₁ f = true ∧ q₂ f = true)) :
    ∀ l : List Func,
      l.countP (fun f => p f && q₁ f) + l.countP (fun f => p f && q₂ f) ≤
        l.countP p := by
  intro l
  induction l with
  | nil => simp
  | cons f fs ih =>
    simp only [List.countP_cons]
    have hle : (if (p f && q₁ f) = true then 1 else 0) +
        (if (p f && q₂ f) = true then 1 else 0) ≤
        (if p f = true then 1 else 0) := by
      cases hp : p f <;> cases h1 : q₁ f <;> cases h2 : q₂ f <;>
        (simp [hp, h1, h2]
         all_goals exact absurd ⟨h1, h2⟩ (hdisj f))
    omega

theorem calleeCount_le_one {M : Module} (hwf : WF M) (c : String) :
    M.funcs.countP (fun f => decide (f.name = c)) ≤ 1 := by
  obtain ⟨-, hn⟩ := hwf
  have h1 : M.funcs.countP (fun f => decide (f.name = c)) =
      (M.funcs.map Func.name).countP (fun s => decide (s = c)) := by
    rw [List.countP_map]
    rfl
  rw [h1]
  have h2 : (M.funcs.map Func.name).countP (fun s => decide (s = c)) =
      (M.funcs.map Func.name).count c := by
    rw [List.count_eq_countP]
    apply List.countP_congr
    intro s _
    have : (s == c) = decide (s = c) := by
      cases hd : decide (s = c) with
      | true => simp_all
      | false => simp_all
    rw [this]
  rw [h2]
  exact List.nodup_iff_count_le_one.mp hn c

theorem collected_subperm {M : Module} (hwf : WF M) :
    List.Subperm (nondetCallInstrs M ++ allocCallInstrs M) (occs M) := by
  rw [List.subperm_ext_iff]
  intro x hx
  have hxc : x.isCall = true := by
    rcases List.mem_append.mp hx with h | h
    · exact (mem_of_mem_nondetCallInstrs h).2
    · exact (mem_of_mem_allocCallInstrs h).2
  obtain ⟨r, c, args, T, d, ats, rfl⟩ :
      ∃ r c args T d ats, x = Instr.call r c args T d ats := by
    cases x with
    | call r c args T d ats => exact ⟨r, c, args, T, d, ats, rfl⟩
    | alloca r t => simp [Instr.isCall] at hxc
    | ptrcast r s => simp [Instr.isCall] at hxc
    | load r s n => simp [Instr.isCall] at hxc
    | mul r a b => simp [Instr.isCall] at hxc
    | iother r o => simp [Instr.isCall] at hxc
  have key : ∀ ds : List Func,
      (ds.flatMap (fun f => moduleCalls M f.name)).count
          (Instr.call r c args T d ats) =
        (ds.countP (fun f => isCallTo f.name (Instr.call r c args T d ats))) *
          (occs M).count (Instr.call r c args T d ats) := by
    intro ds
    simp only [moduleCalls_eq_filter]
    exact count_flatMap_filter (occs M) ds
  have hple : M.funcs.countP
      (fun f => isCallTo f.name (Instr.call r c args T d ats)) ≤ 1 := by
    have hcong : M.funcs.countP
        (fun f => isCallTo f.name (Instr.call r c args T d ats)) =
        M.funcs.countP (fun f => decide (f.name = c)) := by
      apply List.countP_congr
      intro f _
      simp only [isCallTo, decide_eq_true_eq]
      exact eq_comm
    rw [hcong]
    exact calleeCount_le_one hwf c
  have hsum : (M.funcs.filter
        (fun f => matchedDecl f && strStartsWith f.name "__VERIFIER")).countP
          (fun f => isCallTo f.name (Instr.call r c args T d ats)) +
      (M.funcs.filter
        (fun f => matchedDecl f && !strStartsWith f.name "__VERIFIER")).countP
          (fun f => isCallTo f.name (Instr.call r c args T d ats)) ≤ 1 := by
    rw [List.countP_filter, List.countP_filter]
    refine le_trans ?_ hple
    have hd : ∀ f : Func,
        ¬((matchedDecl f && strStartsWith f.name "__VERIFIER") = true ∧
          (matchedDecl f && !strStartsWith f.name "__VERIFIER") = true) := by
      intro f ⟨h1, h2⟩
      rcases Bool.and_eq_true _ _ |>.mp h1 with ⟨-, hp⟩
      rcases Bool.and_eq_true _ _ |>.mp h2 with ⟨-, hnp⟩
      rw [hp] at hnp
      exact Bool.noConfusion hnp
    exact countP_split_le hd M.funcs
  simp only [nondetCallInstrs, allocCallInstrs, List.count_append, key]
  rw [← Nat.add_mul]
  have := Nat.mul_le_mul_right
    ((occs M).count (Instr.call r c args T d ats)) hsum
  simpa using this

theorem collected_res_nodup {M : Module} (hwf : WF M) :
    (((nondetCallInstrs M ++ allocCallInstrs M)).map Instr.res).Nodup := by
  have hsub := collected_subperm hwf
  have hmap : List.Subperm
      (((nondetCallInstrs M ++ allocCallInstrs M)).map Instr.res)
      (allRes M) := by
    obtain ⟨l, hperm, hsl⟩ := hsub
    exact ⟨l.map Instr.res, hperm.map _, hsl.map _⟩
  rw [List.nodup_iff_count_le_one]
  intro a
  calc ((nondetCallInstrs M ++ allocCallInstrs M).map Instr.res).count a
      ≤ (allRes M).count a := hmap.count_le a
    _ ≤ 1 := List.nodup_iff_count_le_one.mp hwf.1 a

theorem calls_to_replace_res (M : Module) :
    (calls_to_replace M).map Prod.snd = (nondetCallInstrs M).map Instr.res := by
  simp only [calls_to_replace, List.map_map]
  rfl

theorem allocs_to_handle_res (M : Module) :
    (allocs_to_handle M).map Prod.snd = (allocCallInstrs M).map Instr.res := by
  simp only [allocs_to_handle, List.map_map]
  rfl

/-- SSA uniqueness transfers to the worklists: the registers of the two
worklists are distinct within each list and across the two lists. -/
theorem worklists_res_nodup {M : Module} (hwf : WF M) :
    ((calls_to_replace M).map Prod.snd ++
      (allocs_to_handle M).map Prod.snd).Nodup := by
  rw [calls_to_replace_res, allocs_to_handle_res, ← List.map_append]
  exact collected_res_nodup hwf

/-! ## Locating an instruction occurrence in a well-formed module -/

theorem occs_decomp {M : Module} (hwf : WF M) {i : Instr} (hi : i ∈ occs M) :
    ∃ F₁ f F₂ b₁ b₂,
      M.funcs = F₁ ++ f :: F₂ ∧ f.body = b₁ ++ i :: b₂ ∧
      (∀ i' ∈ b₁, i'.res ≠ i.res) ∧ (∀ i' ∈ b₂, i'.res ≠ i.res) ∧
      (∀ f' ∈ F₁, (∀ i' ∈ f'.body, i'.res ≠ i.res) ∧ f'.name ≠ f.name) ∧
      (∀ f' ∈ F₂, (∀ i' ∈ f'.body, i'.res ≠ i.res) ∧ f'.name ≠ f.name) := by
  obtain ⟨f, hf, hif⟩ := List.mem_flatMap.mp hi
  obtain ⟨F₁, F₂, hFs⟩ := List.append_of_mem hf
  obtain ⟨b₁, b₂, hbs⟩ := List.append_of_mem hif
  have hcount : (allRes M).count i.res ≤ 1 :=
    List.nodup_iff_count_le_one.mp hwf.1 i.res
  have hexp : (allRes M).count i.res =
      ((F₁.flatMap Func.body).map Instr.res).count i.res +
      ((b₁.map Instr.res).count i.res + (1 + (b₂.map Instr.res).count i.res) +
      ((F₂.flatMap Func.body).map Instr.res).count i.res) := by
    rw [allRes, occs, hFs, List.flatMap_append, List.flatMap_cons, hbs]
    simp [List.count_append, List.count_cons]
    omega
  have hkey : ((F₁.flatMap Func.body).map Instr.res).count i.res = 0 ∧
      (b₁.map Instr.res).count i.res = 0 ∧
      (b₂.map Instr.res).count i.res = 0 ∧
      ((F₂.flatMap Func.body).map Instr.res).count i.res = 0 := by
    omega
  have hcz : ∀ (l : List Instr), (l.map Instr.res).count i.res = 0 →
      ∀ i' ∈ l, i'.res ≠ i.res := by
    intro l hl i' hi' heq
    have : i.res ∈ l.map Instr.res := List.mem_map.mpr ⟨i', hi', heq⟩
    rw [← List.count_pos_iff] at this
    omega
  have hnames := hwf.2
  rw [hFs, List.map_append, List.map_cons, List.nodup_append] at hnames
  obtain ⟨-, hn2, hdisj⟩ := hnames
  have hnotin2 : f.name ∉ F₂.map Func.name := (List.nodup_cons.mp hn2).1
  refine ⟨F₁, f, F₂, b₁, b₂, hFs, hbs, hcz b₁ hkey.2.1, hcz b₂ hkey.2.2.1,
    ?_, ?_⟩
  · intro f' hf'
    refine ⟨?_, ?_⟩
    · intro i' hi' heq
      have hm : i' ∈ F₁.flatMap Func.body := List.mem_flatMap.mpr ⟨f', hf', hi'⟩
      exact hcz _ hkey.1 i' hm heq
    · intro heq
      have h1 : f'.name ∈ F₁.map Func.name := List.mem_map_of_mem _ hf'
      have h2 := hdisj h1
      rw [heq] at h2
      exact h2 (List.mem_cons_self _ _)
  · intro f' hf'
    refine ⟨?_, ?_⟩
    · intro i' hi' heq
      have hm : i' ∈ F₂.flatMap Func.body := List.mem_flatMap.mpr ⟨f', hf', hi'⟩
      exact hcz _ hkey.2.2.2 i' hm heq
    · intro heq
      exact hnotin2 (heq ▸ List.mem_map_of_mem _ hf')

/-- Compute `findInstr` from a decomposition witnessing uniqueness. -/
theorem findInstr_eq_of {M : Module} {F₁ F₂ : List Func} {f : Func}
    {b₁ b₂ : List Instr} {i : Instr} {r : Nat}
    (hFs : M.funcs = F₁ ++ f :: F₂) (hbs : f.body = b₁ ++ i :: b₂)
    (hr : i.res = r)
    (hF₁ : ∀ f' ∈ F₁, ∀ i' ∈ f'.body, i'.res ≠ r)
    (hb₁ : ∀ i' ∈ b₁, i'.res ≠ r) :
    findInstr M r = some (f.name, i) := by
  unfold findInstr
  rw [hFs, List.findSome?_append]
  have h1 : F₁.findSome? (fun f' =>
      (f'.body.find? (fun i' => i'.res = r)).map (fun i' => (f'.name, i'))) =
      none := by
    rw [List.findSome?_eq_none_iff]
    intro f' hf'
    have : f'.body.find? (fun i' => i'.res = r) = none := by
      rw [List.find?_eq_none]
      intro i' hi'
      simp [hF₁ f' hf' i' hi']
    simp [this]
  rw [h1]
  have h2 : f.body.find? (fun i' => i'.res = r) = some i := by
    rw [hbs, List.find?_append]
    have hn : b₁.find? (fun i' => i'.res = r) = none := by
      rw [List.find?_eq_none]
      intro i' hi'
      simp [hb₁ i' hi']
    rw [hn]
    have : (i :: b₂).find? (fun i' => i'.res = r) = some i :=
      List.find?_cons_of_pos _ (by simp [hr])
    simp [this]
  rw [List.findSome?_cons]
  simp [h2]

/-! ## Freshness bounds -/

theorem le_foldr_max {x : Nat} : ∀ {l : List Nat}, x ∈ l → x ≤ l.foldr max 0 := by
  intro l
  induction l with
  | nil => intro h; cases h
  | cons a as ih =>
    intro h
    rcases List.mem_cons.mp h with h | h
    · subst h; exact Nat.le_max_left _ _
    · exact Nat.le_trans (ih h) (Nat.le_max_right _ _)

theorem lt_bound_of_mem_ids {M : Module} {x : Nat} (h : x ∈ M.ids) :
    x < moduleBound M := by
  have := le_foldr_max h
  unfold moduleBound
  omega

theorem res_lt_bound {M : Module} {f : Func} {i : Instr}
    (hf : f ∈ M.funcs) (hi : i ∈ f.body) : i.res < moduleBound M := by
  apply lt_bound_of_mem_ids
  apply List.mem_append_left
  refine List.mem_flatMap.mpr ⟨f, hf, List.mem_flatMap.mpr ⟨i, hi, ?_⟩⟩
  exact List.mem_cons_self _ _

theorem operandReg_lt_bound {M : Module} {f : Func} {i : Instr} {x : Nat}
    (hf : f ∈ M.funcs) (hi : i ∈ f.body) (hx : x ∈ i.operandRegs) :
    x < moduleBound M := by
  apply lt_bound_of_mem_ids
  apply List.mem_append_left
  refine List.mem_flatMap.mpr ⟨f, hf, List.mem_flatMap.mpr ⟨i, hi, ?_⟩⟩
  exact List.mem_cons_of_mem _ (List.mem_append_left _ hx)

theorem globalId_lt_bound {M : Module} {g : Nat} {s : String}
    (h : (g, s) ∈ M.globals) : g < moduleBound M := by
  apply lt_bound_of_mem_ids
  apply List.mem_append_right
  exact List.mem_map.mpr ⟨(g, s), h, rfl⟩

/-! ## Worklist entries -/

theorem mem_calls_to_replace {M : Module} {line r : Nat}
    (h : (line, r) ∈ calls_to_replace M) :
    ∃ i ∈ nondetCallInstrs M, i.res = r ∧ i.dbg.getD 0 = line := by
  obtain ⟨i, hi, he⟩ := List.mem_map.mp h
  refine ⟨i, hi, ?_, ?_⟩
  · exact congrArg Prod.snd he
  · exact congrArg Prod.fst he

theorem mem_allocs_to_handle {M : Module} {line r : Nat}
    (h : (line, r) ∈ allocs_to_handle M) :
    ∃ i ∈ allocCallInstrs M, i.res = r ∧ i.dbg.getD 0 = line := by
  obtain ⟨i, hi, he⟩ := List.mem_map.mp h
  refine ⟨i, hi, ?_, ?_⟩
  · exact congrArg Prod.snd he
  · exact congrArg Prod.fst he

/-! ## Worklist index bookkeeping -/

theorem getElem?_of_drop_cons {α : Type} {l : List α} {k : Nat} {e : α}
    {rest : List α} (h : l.drop k = e :: rest) : l[k]? = some e := by
  have h0 : (l.drop k)[0]? = some e := by rw [h]; simp
  rwa [List.getElem?_drop, Nat.add_zero] at h0

theorem findIdx?_at_of_eq_some {α : Type} {l : List α} {p : α → Bool}
    {j : Nat} {e : α} {rest : List α} (hfi : l.findIdx? p = some j)
    (hd : l.drop j = e :: rest) : p e = true := by
  obtain ⟨hlt, hidx⟩ := List.findIdx?_eq_some_iff_findIdx_eq.mp hfi
  have hget : l[l.findIdx p]? = some e := by rw [hidx]; exact getElem?_of_drop_cons hd
  exact List.findIdx_of_getElem?_eq_some hget

theorem drop_calls_decomp {M : Module} {k line r : Nat}
    {rest : List (Nat × Nat)}
    (hdrop : (calls_to_replace M).drop k = (line, r) :: rest) :
    calls_to_replace M =
      (calls_to_replace M).take k ++ (line, r) :: rest := by
  conv_lhs => rw [← List.take_append_drop k (calls_to_replace M)]
  rw [hdrop]

theorem nondetIdx_eq_of_drop {M : Module} {k line r : Nat}
    {rest : List (Nat × Nat)}
    (hdrop : (calls_to_replace M).drop k = (line, r) :: rest)
    (hnd : ((calls_to_replace M).map Prod.snd).Nodup) :
    nondetIdx M r = some k := by
  have hsplit := drop_calls_decomp hdrop
  have hklen : ((calls_to_replace M).take k).length = k := by
    have hlt : k < (calls_to_replace M).length := by
      by_contra hge
      have : (calls_to_replace M).drop k = [] :=
        List.drop_eq_nil_of_le (by omega)
      rw [this] at hdrop
      cases hdrop
    simp [List.length_take]
    omega
  have hnotin : ∀ e ∈ (calls_to_replace M).take k,
      (decide (e.2 = r)) = false := by
    intro e he
    have hmr : r ∉ ((calls_to_replace M).take k).map Prod.snd := by
      rw [hsplit, List.map_append, List.map_cons, List.nodup_append] at hnd
      intro hmem
      exact (hnd.2.2 hmem) (List.mem_cons_self _ _)
    simp only [decide_eq_false_iff_not]
    intro heq
    exact hmr (List.mem_map.mpr ⟨e, he, heq⟩)
  unfold nondetIdx
  rw [hsplit]
  have := findIdx?_append_cons (fun e => decide (e.2 = r))
    ((calls_to_replace M).take k) rest (line, r) hnotin (by simp) 0
  rw [this, hklen]
  simp

theorem res_eq_of_nondetIdx_some {M : Module} {k line r x : Nat}
    {rest : List (Nat × Nat)}
    (hdrop : (calls_to_replace M).drop k = (line, r) :: rest)
    (hjx : nondetIdx M x = some k) : x = r := by
  have hjx2 : (calls_to_replace M).findIdx?
      (fun e => decide (e.2 = x)) = some k := hjx
  have := findIdx?_at_of_eq_some hjx2 hdrop
  simp at this
  omega

/-! ## The accumulated renaming, one step at a time -/

theorem nondetSigmaK_succ {M : Module} {k line r : Nat}
    {rest : List (Nat × Nat)}
    (hdrop : (calls_to_replace M).drop k = (line, r) :: rest)
    (hnd : ((calls_to_replace M).map Prod.snd).Nodup)
    (hrf : r < moduleBound M) (x : Nat) :
    nondetSigmaK M (k + 1) x =
      rauw r (nondetBase M k + 4) (nondetSigmaK M k x) := by
  have hidx := nondetIdx_eq_of_drop hdrop hnd
  by_cases hxr : x = r
  · subst hxr
    simp only [nondetSigmaK, hidx, Nat.lt_irrefl, if_false, rauw,
      Nat.lt_succ_self, if_true, if_pos rfl]
  · cases hjx : nondetIdx M x with
    | none =>
      simp only [nondetSigmaK, hjx, rauw, if_neg hxr]
    | some j =>
      have hjk : j ≠ k := by
        intro heq
        exact hxr (res_eq_of_nondetIdx_some hdrop (heq ▸ hjx))
      by_cases hlt : j < k
      · have hbase : nondetBase M j + 4 ≠ r := by
          have : moduleBound M ≤ nondetBase M j := by
            unfold nondetBase; omega
          omega
        simp only [nondetSigmaK, hjx, hlt, if_true, rauw, if_pos]
        rw [if_pos (by omega), if_neg hbase]
      · have hge : ¬ j < k + 1 := by omega
        simp only [nondetSigmaK, hjx, hlt, hge, if_false, rauw, if_neg hxr]

/-! ## Computation rules for `transNondetK` -/

theorem flatMap_congr {α β : Type} {l : List α} {g₁ g₂ : α → List β}
    (h : ∀ a ∈ l, g₁ a = g₂ a) : l.flatMap g₁ = l.flatMap g₂ := by
  induction l with
  | nil => rfl
  | cons a as ih =>
    simp only [List.flatMap_cons]
    rw [h a (List.mem_cons_self _ _), ih (fun x hx => h x (List.mem_cons_of_mem _ hx))]

theorem isCall_shape {i : Instr} (h : i.isCall = true) :
    ∃ res c args T dbg ats, i = Instr.call res c args T dbg ats := by
  cases i with
  | call res c args T dbg ats => exact ⟨res, c, args, T, dbg, ats, rfl⟩
  | alloca r t => simp [Instr.isCall] at h
  | ptrcast r s => simp [Instr.isCall] at h
  | load r sl nm => simp [Instr.isCall] at h
  | mul r a b => simp [Instr.isCall] at h
  | iother r os => simp [Instr.isCall] at h

theorem transNondetK_of_none {dl : DataLayout} {lm : List (Nat × String)}
    {M : Module} {k : Nat} {fname : String} {i : Instr}
    (h : nondetIdx M i.res = none) :
    transNondetK dl lm M k fname i = [i.mapReg (nondetSigmaK M k)] := by
  unfold transNondetK
  rw [h]

theorem transNondetK_of_not_lt {dl : DataLayout} {lm : List (Nat × String)}
    {M : Module} {k j : Nat} {fname : String} {i : Instr}
    (h : nondetIdx M i.res = some j) (hge : ¬ j < k) :
    transNondetK dl lm M k fname i = [i.mapReg (nondetSigmaK M k)] := by
  unfold transNondetK
  rw [h]
  cases i <;> simp [hge]

theorem transNondetK_of_notCall {dl : DataLayout} {lm : List (Nat × String)}
    {M : Module} {k : Nat} {fname : String} {i : Instr}
    (h : i.isCall = false) :
    transNondetK dl lm M k fname i = [i.mapReg (nondetSigmaK M k)] := by
  unfold transNondetK
  cases hjx : nondetIdx M i.res
  · rfl
  · cases i <;> simp_all [Instr.isCall]

theorem transNondetK_call_of_lt {dl : DataLayout} {lm : List (Nat × String)}
    {M : Module} {k j res : Nat} {fname c : String} {args : List Value}
    {T : Ty} {dbg : Option Nat} {ats : List String}
    (h : nondetIdx M res = some j) (hlt : j < k) :
    transNondetK dl lm M k fname (Instr.call res c args T dbg ats) =
      nondetSeg dl T ats dbg
        (mkName fname (varOf lm (dbg.getD 0)) (dbg.getD 0))
        (nondetBase M j) (j + 1) := by
  unfold transNondetK
  have hres : (Instr.call res c args T dbg ats).res = res := rfl
  rw [hres, h]
  simp [hlt]

theorem transNondetK_res {dl : DataLayout} {lm : List (Nat × String)}
    {M : Module} {k : Nat} {fname : String} {i : Instr} :
    ∀ i' ∈ transNondetK dl lm M k fname i,
      i'.res = i.res ∨ moduleBound M ≤ i'.res := by
  intro i' h
  cases hC : i.isCall with
  | false =>
    rw [transNondetK_of_notCall hC] at h
    simp only [List.mem_singleton] at h
    subst h
    left
    exact Instr.res_mapReg _ _
  | true =>
    obtain ⟨res, c, args, T, dbg, ats, rfl⟩ := isCall_shape hC
    cases hjx : nondetIdx M (Instr.call res c args T dbg ats).res with
    | none =>
      rw [transNondetK_of_none hjx] at h
      simp only [List.mem_singleton] at h
      subst h
      left
      exact Instr.res_mapReg _ _
    | some j =>
      rw [show (Instr.call res c args T dbg ats).res = res from rfl] at hjx
      by_cases hlt : j < k
      · rw [transNondetK_call_of_lt hjx hlt] at h
        right
        have := nondetSeg_res_bounds i' h
        have hge : moduleBound M ≤ nondetBase M j := by
          unfold nondetBase; omega
        omega
      · rw [transNondetK_of_not_lt hjx hlt] at h
        simp only [List.mem_singleton] at h
        subst h
        left
        exact Instr.res_mapReg _ _

/-- Applying the `k`-th `replaceAllUsesWith` renaming to the effect of the
first `k` rewrites yields the effect of the first `k + 1` rewrites, for any
instruction other than the `k`-th collected call itself. -/
theorem map_rauw_transNondetK {dl : DataLayout} {lm : List (Nat × String)}
    {M : Module} {k line r : Nat} {rest : List (Nat × Nat)} {fname : String}
    {i : Instr}
    (hdrop : (calls_to_replace M).drop k = (line, r) :: rest)
    (hnd : ((calls_to_replace M).map Prod.snd).Nodup)
    (hrf : r < moduleBound M)
    (hne : nondetIdx M i.res ≠ some k) :
    (transNondetK dl lm M k fname i).map
        (Instr.mapReg (rauw r (nondetBase M k + 4))) =
      transNondetK dl lm M (k + 1) fname i := by
  have hσ := nondetSigmaK_succ hdrop hnd hrf
  have himg : ∀ a : Instr,
      (a.mapReg (nondetSigmaK M k)).mapReg (rauw r (nondetBase M k + 4)) =
        a.mapReg (nondetSigmaK M (k + 1)) := by
    intro a
    rw [Instr.mapReg_comp]
    exact (Instr.mapReg_congr (fun x _ => (hσ x).symm)).symm ▸ rfl
  cases hC : i.isCall with
  | false =>
    rw [transNondetK_of_notCall hC, transNondetK_of_notCall hC]
    simp [himg]
  | true =>
    obtain ⟨res, c, args, T, dbg, ats, rfl⟩ := isCall_shape hC
    cases hjx : nondetIdx M (Instr.call res c args T dbg ats).res with
    | none =>
      rw [transNondetK_of_none hjx, transNondetK_of_none hjx]
      simp [himg]
    | some j =>
      rw [show (Instr.call res c args T dbg ats).res = res from rfl] at hjx
      have hjk : j ≠ k := by
        intro he
        exact hne (by rw [show (Instr.call res c args T dbg ats).res = res from rfl]; exact he ▸ hjx)
      by_cases hlt : j < k
      · rw [transNondetK_call_of_lt hjx hlt,
          transNondetK_call_of_lt hjx (by omega)]
        apply nondetSeg_mapReg
        · have hb : moduleBound M ≤ nondetBase M j := by
            unfold nondetBase; omega
          unfold rauw
          rw [if_neg (by omega)]
        · have hb : moduleBound M ≤ nondetBase M j := by
            unfold nondetBase; omega
          unfold rauw
          rw [if_neg (by omega)]
      · rw [transNondetK_of_not_lt hjx hlt,
          transNondetK_of_not_lt hjx (by omega)]
        simp [himg]

theorem idx_ne_of_res_ne {M : Module} {k line r : Nat}
    {rest : List (Nat × Nat)} {i : Instr}
    (hdrop : (calls_to_replace M).drop k = (line, r) :: rest)
    (hne : i.res ≠ r) : nondetIdx M i.res ≠ some k := by
  intro h
  exact hne (res_eq_of_nondetIdx_some hdrop h)

theorem map_rauw_flatMap_transNondetK {dl : DataLayout}
    {lm : List (Nat × String)} {M : Module} {k line r : Nat}
    {rest : List (Nat × Nat)} {fname : String} {b : List Instr}
    (hdrop : (calls_to_replace M).drop k = (line, r) :: rest)
    (hnd : ((calls_to_replace M).map Prod.snd).Nodup)
    (hrf : r < moduleBound M)
    (hb : ∀ i' ∈ b, i'.res ≠ r) :
    (b.flatMap (transNondetK dl lm M k fname)).map
        (Instr.mapReg (rauw r (nondetBase M k + 4))) =
      b.flatMap (transNondetK dl lm M (k + 1) fname) := by
  rw [List.map_flatMap]
  exact flatMap_congr (fun i' hi' =>
    map_rauw_transNondetK hdrop hnd hrf (idx_ne_of_res_ne hdrop (hb i' hi')))

/-! ## Unfolding the rewrite functions at a located call -/

theorem replaceCall_found {dl : DataLayout} {st : PassState} {line r : Nat}
    {var parent c : String} {r' : Nat} {args : List Value} {T : Ty}
    {dbg : Option Nat} {ats : List String}
    (h : findInstr st.M r = some (parent, Instr.call r' c args T dbg ats)) :
    replaceCall dl st line var r =
      { M := Module.mapReg (rauw r (st.fresh + 4))
          { Module.editBody (get_verifier_make_nondet st.M st.vms).1 parent
              (replaceAt (fun i => i.res = r)
                (nondetSeg dl T ats dbg (mkName parent var line) st.fresh
                  (st.call_identifier + 1))) with
            globals := (get_verifier_make_nondet st.M st.vms).1.globals ++
              [(st.fresh, mkName parent var line)] },
        call_identifier := st.call_identifier + 1,
        alloc_identifier := st.alloc_identifier,
        vms := (get_verifier_make_nondet st.M st.vms).2,
        fresh := st.fresh + 5 } := by
  unfold replaceCall
  rw [h]

theorem handleAlloc_found {st : PassState} {line r : Nat}
    {var parent c : String} {r' : Nat} {args : List Value} {T : Ty}
    {dbg : Option Nat} {ats : List String}
    (h : findInstr st.M r = some (parent, Instr.call r' c args T dbg ats)) :
    handleAlloc st line var r =
      { M := { Module.editBody (get_verifier_make_nondet st.M st.vms).1 parent
              (replaceAt (fun i => i.res = r)
                (Instr.call r c args T dbg ats ::
                  allocSeg c args r st.fresh (st.alloc_identifier + 1))) with
            globals := (get_verifier_make_nondet st.M st.vms).1.globals ++
              [(st.fresh, mkName parent var line)] },
        call_identifier := st.call_identifier,
        alloc_identifier := st.alloc_identifier + 1,
        vms := (get_verifier_make_nondet st.M st.vms).2,
        fresh := st.fresh + 4 } := by
  unfold handleAlloc
  rw [h]

/-! ## The registration-function declaration bookkeeping -/

theorem hasKlee_mapBody (M : Module) (gl : List (Nat × String))
    (tr : Func → List Instr) :
    hasKlee { funcs := M.funcs.map (fun f => { f with body := tr f }),
              globals := gl } = hasKlee M := by
  simp only [hasKlee, List.any_map]
  rfl

theorem name_ne_klee_of_not_hasKlee {M : Module} {f : Func}
    (h : hasKlee M = false) (hf : f ∈ M.funcs) :
    f.name ≠ "klee_make_nondet" := by
  unfold hasKlee at h
  rw [List.any_eq_false] at h
  have := h f hf
  simpa using this

theorem getVMS_nondetK {dl : DataLayout} {lm : List (Nat × String)}
    {M : Module} {k : Nat} :
    get_verifier_make_nondet (moduleNondetK dl lm M k) (k != 0) =
      ({ funcs := M.funcs.map (fun f' =>
            { f' with body := f'.body.flatMap (transNondetK dl lm M k f'.name) })
            ++ appendNondetK M (k + 1),
         globals := M.globals ++ nondetGlobalsK lm M k }, true) := by
  cases k with
  | zero =>
    have hk : hasKlee (moduleNondetK dl lm M 0) = hasKlee M := by
      have h0 : moduleNondetK dl lm M 0 =
          { funcs := M.funcs.map (fun f' =>
              { f' with body := f'.body.flatMap (transNondetK dl lm M 0 f'.name) }),
            globals := M.globals ++ nondetGlobalsK lm M 0 } := by
        simp [moduleNondetK, funcsNondetK, appendNondetK]
      rw [h0]
      exact hasKlee_mapBody M _ _
    unfold get_verifier_make_nondet
    simp only [show ((0 : Nat) != 0) = false from rfl, Bool.false_eq_true,
      if_false, hk]
    by_cases hK : hasKlee M = true
    · simp only [hK, if_true, Prod.mk.injEq]
      refine ⟨?_, trivial⟩
      simp [moduleNondetK, funcsNondetK, appendNondetK, hK]
    · rw [Bool.not_eq_true] at hK
      simp only [hK, Bool.false_eq_true, if_false, Prod.mk.injEq]
      refine ⟨?_, trivial⟩
      simp [moduleNondetK, funcsNondetK, appendNondetK, hK]
  | succ k' =>
    unfold get_verifier_make_nondet
    simp only [show ((k' + 1 : Nat) != 0) = true from by simp, if_true,
      Prod.mk.injEq]
    refine ⟨?_, trivial⟩
    have happ : appendNondetK M (k' + 1 + 1) = appendNondetK M (k' + 1) := by
      simp [appendNondetK]
    rw [happ]
    simp [moduleNondetK, funcsNondetK]

/-! ## Globals bookkeeping -/

theorem length_take_of_drop {α : Type} {l : List α} {k : Nat} {e : α}
    {rest : List α} (h : l.drop k = e :: rest) : (l.take k).length = k := by
  have hlt : k < l.length := by
    by_contra hge
    have : l.drop k = [] := List.drop_eq_nil_of_le (by omega)
    rw [this] at h
    cases h
  simp [List.length_take]
  omega

theorem enum_append_singleton {α : Type} (l : List α) (e : α) :
    (l ++ [e]).enum = l.enum ++ [(l.length, e)] := by
  show (l ++ [e]).enumFrom 0 = l.enumFrom 0 ++ [(l.length, e)]
  rw [enumFrom_append_singleton]
  simp

theorem nondetGlobalsK_succ {lm : List (Nat × String)} {M : Module}
    {k line r : Nat} {rest : List (Nat × Nat)}
    (hdrop : (calls_to_replace M).drop k = (line, r) :: rest) :
    nondetGlobalsK lm M (k + 1) = nondetGlobalsK lm M k ++
      [(nondetBase M k, mkName (parentOf M r) (varOf lm line) line)] := by
  unfold nondetGlobalsK
  rw [take_succ_of_drop hdrop, enum_append_singleton, List.map_append,
    length_take_of_drop hdrop]
  rfl

/-! ## Rewriting a decomposed module -/

theorem map_eq_self {α : Type} {l : List α} {f : α → α}
    (h : ∀ a ∈ l, f a = a) : l.map f = l := by
  induction l with
  | nil => rfl
  | cons a as ih =>
    simp only [List.map_cons, h a (List.mem_cons_self _ _)]
    rw [ih (fun x hx => h x (List.mem_cons_of_mem _ hx))]

theorem editBody_decomp {L₁ L₂ : List Func} {g : Func}
    {G : List (Nat × String)} {n : String} {e : List Instr → List Instr}
    (h₁ : ∀ f' ∈ L₁, f'.name ≠ n) (h₂ : ∀ f' ∈ L₂, f'.name ≠ n)
    (hg : g.name = n) :
    Module.editBody { funcs := L₁ ++ g :: L₂, globals := G } n e =
      { funcs := L₁ ++ { g with body := e g.body } :: L₂, globals := G } := by
  unfold Module.editBody
  simp only [Module.mk.injEq, and_true, List.map_append, List.map_cons]
  congr 1
  · exact map_eq_self (fun f' hf' => if_neg (h₁ f' hf'))
  congr 1
  · rw [if_pos hg]
  · exact map_eq_self (fun f' hf' => if_neg (h₂ f' hf'))

/-! ## The nondet rewrite step -/

theorem replaceCall_step {dl : DataLayout} {lm : List (Nat × String)}
    {alloc_static : Nat} {M : Module} (hwf : WF M) {k line r : Nat}
    {rest : List (Nat × Nat)}
    (hdrop : (calls_to_replace M).drop k = (line, r) :: rest) :
    replaceCall dl (stateNondetK dl lm alloc_static M k) line (varOf lm line) r
      = stateNondetK dl lm alloc_static M (k + 1) := by
  have hnd : ((calls_to_replace M).map Prod.snd).Nodup :=
    (List.nodup_append.mp (worklists_res_nodup hwf)).1
  have hmem : (line, r) ∈ calls_to_replace M := by
    rw [drop_calls_decomp hdrop]
    exact List.mem_append_right _ (List.mem_cons_self _ _)
  obtain ⟨CI, hCIw, hCIres, hCIline⟩ := mem_calls_to_replace hmem
  obtain ⟨hCIoccs, hCIcall⟩ := mem_of_mem_nondetCallInstrs hCIw
  obtain ⟨res0, c0, args0, T0, dbg0, ats0, rfl⟩ := isCall_shape hCIcall
  have hres0 : r = res0 := hCIres.symm
  subst hres0
  have hline : dbg0.getD 0 = line := hCIline
  obtain ⟨F₁, f, F₂, b₁, b₂, hFs, hbs, hb₁, hb₂, hF₁, hF₂⟩ :=
    occs_decomp hwf hCIoccs
  simp only [show (Instr.call r c0 args0 T0 dbg0 ats0).res = r from rfl]
    at hb₁ hb₂ hF₁ hF₂
  have hfmem : f ∈ M.funcs := by
    rw [hFs]; exact List.mem_append_right _ (List.mem_cons_self _ _)
  have hCIbody : Instr.call r c0 args0 T0 dbg0 ats0 ∈ f.body := by
    rw [hbs]; exact List.mem_append_right _ (List.mem_cons_self _ _)
  have hrf : r < moduleBound M := res_lt_bound hfmem hCIbody
  have hidx : nondetIdx M r = some k := nondetIdx_eq_of_drop hdrop hnd
  have htransCI : transNondetK dl lm M k f.name
      (Instr.call r c0 args0 T0 dbg0 ats0) =
      [(Instr.call r c0 args0 T0 dbg0 ats0).mapReg (nondetSigmaK M k)] :=
    transNondetK_of_not_lt hidx (Nat.lt_irrefl k)
  have hresNe : ∀ (b : List Instr) (fn : String), (∀ i0 ∈ b, i0.res ≠ r) →
      ∀ i' ∈ b.flatMap (transNondetK dl lm M k fn), i'.res ≠ r := by
    intro b fn hb i' hi'
    obtain ⟨i0, hi0, hmem'⟩ := List.mem_flatMap.mp hi'
    rcases transNondetK_res i' hmem' with he | hge
    · rw [he]; exact hb i0 hi0
    · omega
  have hparent : parentOf M r = f.name := by
    unfold parentOf
    rw [findInstr_eq_of hFs hbs hCIres (fun f' hf' => (hF₁ f' hf').1) hb₁]
  -- locate the (renamed) call in the partially rewritten module
  have hFs' : (moduleNondetK dl lm M k).funcs =
      (F₁.map (fun f' => { f' with
          body := f'.body.flatMap (transNondetK dl lm M k f'.name) })) ++
        ({ f with body := f.body.flatMap (transNondetK dl lm M k f.name) } ::
          ((F₂.map (fun f' => { f' with
            body := f'.body.flatMap (transNondetK dl lm M k f'.name) })) ++
            appendNondetK M k)) := by
    simp [moduleNondetK, funcsNondetK, hFs]
  have hbs' : ({ f with
      body := f.body.flatMap (transNondetK dl lm M k f.name) } : Func).body =
      (b₁.flatMap (transNondetK dl lm M k f.name)) ++
        (Instr.call r c0 (args0.map (Value.mapReg (nondetSigmaK M k))) T0 dbg0
            ats0 ::
          (b₂.flatMap (transNondetK dl lm M k f.name))) := by
    show f.body.flatMap _ = _
    rw [hbs, List.flatMap_append, List.flatMap_cons, htransCI]
    rfl
  have hfind : findInstr (moduleNondetK dl lm M k) r =
      some (f.name, Instr.call r c0
        (args0.map (Value.mapReg (nondetSigmaK M k))) T0 dbg0 ats0) := by
    refine @findInstr_eq_of (moduleNondetK dl lm M k)
      (F₁.map (fun f' => { f' with
        body := f'.body.flatMap (transNondetK dl lm M k f'.name) }))
      ((F₂.map (fun f' => { f' with
        body := f'.body.flatMap (transNondetK dl lm M k f'.name) })) ++
        appendNondetK M k)
      ({ f with body := f.body.flatMap (transNondetK dl lm M k f.name) })
      (b₁.flatMap (transNondetK dl lm M k f.name))
      (b₂.flatMap (transNondetK dl lm M k f.name))
      (Instr.call r c0 (args0.map (Value.mapReg (nondetSigmaK M k))) T0 dbg0
        ats0)
      r hFs' hbs' rfl ?_ ?_
    · intro f' hf' i' hi'
      obtain ⟨f₁, hf₁, rfl⟩ := List.mem_map.mp hf'
      exact hresNe f₁.body f₁.name (fun i0 h0 => (hF₁ f₁ hf₁).1 i0 h0) i' hi'
    · exact hresNe b₁ f.name hb₁
  rw [replaceCall_found hfind]
  simp only [stateNondetK]
  rw [getVMS_nondetK]
  have hM1 : Module.mk
      (M.funcs.map (fun f' => { f' with
        body := f'.body.flatMap (transNondetK dl lm M k f'.name) })
        ++ appendNondetK M (k + 1))
      (M.globals ++ nondetGlobalsK lm M k) =
      Module.mk
        ((F₁.map (fun f' => { f' with
            body := f'.body.flatMap (transNondetK dl lm M k f'.name) })) ++
          ({ f with body := f.body.flatMap (transNondetK dl lm M k f.name) } ::
          ((F₂.map (fun f' => { f' with
            body := f'.body.flatMap (transNondetK dl lm M k f'.name) })) ++
            appendNondetK M (k + 1))))
        (M.globals ++ nondetGlobalsK lm M k) := by
    rw [hFs]
    simp [List.map_append, List.map_cons, List.append_assoc]
  rw [hM1]
  have hL1 : ∀ f' ∈ F₁.map (fun f' => { f' with
      body := f'.body.flatMap (transNondetK dl lm M k f'.name) }),
      f'.name ≠ f.name := by
    intro f' hf'
    obtain ⟨f₁, hf₁, rfl⟩ := List.mem_map.mp hf'
    exact (hF₁ f₁ hf₁).2
  have hL2 : ∀ f' ∈ (F₂.map (fun f' => { f' with
      body := f'.body.flatMap (transNondetK dl lm M k f'.name) })) ++
      appendNondetK M (k + 1), f'.name ≠ f.name := by
    intro f' hf'
    rcases List.mem_append.mp hf' with hf' | hf'
    · obtain ⟨f₂, hf₂, rfl⟩ := List.mem_map.mp hf'
      exact (hF₂ f₂ hf₂).2
    · unfold appendNondetK at hf'
      by_cases hK : (((k : Nat) + 1 != 0) && !hasKlee M) = true
      · rw [if_pos hK] at hf'
        have hKf : hasKlee M = false := by
          rcases Bool.and_eq_true _ _ |>.mp hK with ⟨-, hnk⟩
          exact Bool.not_eq_true' .. |>.mp hnk
        have hkne := name_ne_klee_of_not_hasKlee hKf hfmem
        simp only [List.mem_singleton] at hf'
        subst hf'
        exact fun he => hkne (he.symm ▸ rfl)
      · rw [if_neg hK] at hf'
        cases hf'
  rw [editBody_decomp hL1 hL2 (show ({ f with
    body := f.body.flatMap (transNondetK dl lm M k f.name) } : Func).name =
    f.name from rfl)]
  have hrepl : replaceAt (fun i => i.res = r)
      (nondetSeg dl T0 ats0 dbg0 (mkName f.name (varOf lm line) line)
        (nondetBase M k) (k + 1))
      (f.body.flatMap (transNondetK dl lm M k f.name)) =
      (b₁.flatMap (transNondetK dl lm M k f.name)) ++
        (nondetSeg dl T0 ats0 dbg0 (mkName f.name (varOf lm line) line)
          (nondetBase M k) (k + 1) ++
        (b₂.flatMap (transNondetK dl lm M k f.name))) := by
    rw [show f.body.flatMap (transNondetK dl lm M k f.name) =
        (b₁.flatMap (transNondetK dl lm M k f.name)) ++
        (Instr.call r c0 (args0.map (Value.mapReg (nondetSigmaK M k))) T0 dbg0
            ats0 ::
          (b₂.flatMap (transNondetK dl lm M k f.name))) from hbs']
    rw [replaceAt_append_left _ (fun x hx => by
      simp only [decide_eq_false_iff_not]
      exact hresNe b₁ f.name hb₁ x hx)]
    rw [replaceAt_cons_of (by simp [Instr.res])]
  have hsegmap : (nondetSeg dl T0 ats0 dbg0
      (mkName f.name (varOf lm line) line) (nondetBase M k) (k + 1)).map
        (Instr.mapReg (rauw r (nondetBase M k + 4))) =
      nondetSeg dl T0 ats0 dbg0
        (mkName f.name (varOf lm line) line) (nondetBase M k) (k + 1) := by
    have hble : moduleBound M ≤ nondetBase M k := by unfold nondetBase; omega
    apply nondetSeg_mapReg
    · unfold rauw
      rw [if_neg (by omega)]
    · unfold rauw
      rw [if_neg (by omega)]
  have htransCI1 : transNondetK dl lm M (k + 1) f.name
      (Instr.call r c0 args0 T0 dbg0 ats0) =
      nondetSeg dl T0 ats0 dbg0
        (mkName f.name (varOf lm line) line) (nondetBase M k) (k + 1) := by
    rw [transNondetK_call_of_lt hidx (Nat.lt_succ_self k), hline]
  congr 1
  · -- the module
    unfold Module.mapReg
    simp only [moduleNondetK, funcsNondetK, Module.mk.injEq]
    constructor
    · -- function list
      rw [hFs]
      simp only [List.map_append, List.map_cons, List.map_map,
        List.cons_append, List.append_assoc]
      congr 1
      · apply List.map_congr_left
        intro f₁ hf₁
        simp only [Function.comp_apply, Func.mk.injEq, true_and]
        exact map_rauw_flatMap_transNondetK hdrop hnd hrf
          (fun i0 h0 => (hF₁ f₁ hf₁).1 i0 h0)
      congr 1
      · simp only [Func.mk.injEq, true_and]
        rw [hrepl, List.map_append, List.map_append]
        rw [map_rauw_flatMap_transNondetK hdrop hnd hrf hb₁,
          map_rauw_flatMap_transNondetK hdrop hnd hrf hb₂, hsegmap]
        rw [hbs, List.flatMap_append, List.flatMap_cons, htransCI1]
      congr 1
      · apply List.map_congr_left
        intro f₂ hf₂
        simp only [Function.comp_apply, Func.mk.injEq, true_and]
        exact map_rauw_flatMap_transNondetK hdrop hnd hrf
          (fun i0 h0 => (hF₂ f₂ hf₂).1 i0 h0)
      · apply map_eq_self
        intro f' hf'
        unfold appendNondetK at hf'
        by_cases hK : (((k : Nat) + 1 != 0) && !hasKlee M) = true
        · rw [if_pos hK] at hf'
          simp only [List.mem_singleton] at hf'
          subst hf'
          rfl
        · rw [if_neg hK] at hf'
          cases hf'
    · -- globals
      rw [List.append_assoc, nondetGlobalsK_succ hdrop, hparent]

/-! ## Alloc-phase index bookkeeping -/

theorem drop_allocs_decomp {M : Module} {j line r : Nat}
    {rest : List (Nat × Nat)}
    (hdrop : (allocs_to_handle M).drop j = (line, r) :: rest) :
    allocs_to_handle M =
      (allocs_to_handle M).take j ++ (line, r) :: rest := by
  conv_lhs => rw [← List.take_append_drop j (allocs_to_handle M)]
  rw [hdrop]

theorem allocIdx_eq_of_drop {M : Module} {j line r : Nat}
    {rest : List (Nat × Nat)}
    (hdrop : (allocs_to_handle M).drop j = (line, r) :: rest)
    (hnd : ((allocs_to_handle M).map Prod.snd).Nodup) :
    allocIdx M r = some j := by
  have hsplit := drop_allocs_decomp hdrop
  have hklen : ((allocs_to_handle M).take j).length = j :=
    length_take_of_drop hdrop
  have hnotin : ∀ e ∈ (allocs_to_handle M).take j,
      (decide (e.2 = r)) = false := by
    intro e he
    have hmr : r ∉ ((allocs_to_handle M).take j).map Prod.snd := by
      rw [hsplit, List.map_append, List.map_cons, List.nodup_append] at hnd
      intro hmem
      exact (hnd.2.2 hmem) (List.mem_cons_self _ _)
    simp only [decide_eq_false_iff_not]
    intro heq
    exact hmr (List.mem_map.mpr ⟨e, he, heq⟩)
  unfold allocIdx
  rw [hsplit]
  have := findIdx?_append_cons (fun e => decide (e.2 = r))
    ((allocs_to_handle M).take j) rest (line, r) hnotin (by simp) 0
  rw [this, hklen]
  simp

theorem res_eq_of_allocIdx_some {M : Module} {j line r x : Nat}
    {rest : List (Nat × Nat)}
    (hdrop : (allocs_to_handle M).drop j = (line, r) :: rest)
    (hjx : allocIdx M x = some j) : x = r := by
  have hjx2 : (allocs_to_handle M).findIdx?
      (fun e => decide (e.2 = x)) = some j := hjx
  have := findIdx?_at_of_eq_some hjx2 hdrop
  simp at this
  omega

theorem allocGlobalsJ_succ {M : Module} {j line r : Nat}
    {rest : List (Nat × Nat)}
    (hdrop : (allocs_to_handle M).drop j = (line, r) :: rest) :
    allocGlobalsJ M (j + 1) = allocGlobalsJ M j ++
      [(allocBase M j, mkName (parentOf M r) "dynalloc" line)] := by
  unfold allocGlobalsJ
  rw [take_succ_of_drop hdrop, enum_append_singleton, List.map_append,
    length_take_of_drop hdrop]
  rfl

/-- A register that owns an alloc worklist entry owns no nondet entry. -/
theorem nondetIdx_of_alloc_none {M : Module} {r : Nat} (hwf : WF M)
    (hmem : r ∈ (allocs_to_handle M).map Prod.snd) :
    nondetIdx M r = none := by
  have hnd := worklists_res_nodup hwf
  have hdisj := (List.nodup_append.mp hnd).2.2
  unfold nondetIdx
  rw [List.findIdx?_eq_none_iff]
  intro e he
  simp only [decide_eq_false_iff_not]
  intro heq
  exact (hdisj (List.mem_map.mpr ⟨e, he, heq⟩)) hmem

/-! ## Computation rules for `transAllocJ` -/

theorem transAllocJ_of_none {M : Module} {as j : Nat} {i : Instr}
    (h : allocIdx M i.res = none) : transAllocJ M as j i = [i] := by
  unfold transAllocJ
  rw [h]

theorem transAllocJ_of_not_lt {M : Module} {as j j' : Nat} {i : Instr}
    (h : allocIdx M i.res = some j') (hge : ¬ j' < j) :
    transAllocJ M as j i = [i] := by
  unfold transAllocJ
  rw [h]
  cases i <;> simp [hge]

theorem transAllocJ_call_of_lt {M : Module} {as j j' res : Nat} {c : String}
    {args : List Value} {T : Ty} {dbg : Option Nat} {ats : List String}
    (h : allocIdx M res = some j') (hlt : j' < j) :
    transAllocJ M as j (Instr.call res c args T dbg ats) =
      Instr.call res c args T dbg ats ::
        allocSeg c args res (allocBase M j') (as + j' + 1) := by
  unfold transAllocJ
  rw [show (Instr.call res c args T dbg ats).res = res from rfl, h]
  simp [hlt]

theorem transAllocJ_res {M : Module} {as j : Nat} {i : Instr} :
    ∀ i' ∈ transAllocJ M as j i,
      i'.res = i.res ∨ moduleBound M ≤ i'.res := by
  intro i' h
  cases hC : i.isCall with
  | false =>
    have : transAllocJ M as j i = [i] := by
      unfold transAllocJ
      cases hjx : allocIdx M i.res
      · rfl
      · cases i <;> simp_all [Instr.isCall]
    rw [this] at h
    simp only [List.mem_singleton] at h
    subst h
    left; rfl
  | true =>
    obtain ⟨res, c, args, T, dbg, ats, rfl⟩ := isCall_shape hC
    cases hjx : allocIdx M (Instr.call res c args T dbg ats).res with
    | none =>
      rw [transAllocJ_of_none hjx] at h
      simp only [List.mem_singleton] at h
      subst h
      left; rfl
    | some j' =>
      rw [show (Instr.call res c args T dbg ats).res = res from rfl] at hjx
      by_cases hlt : j' < j
      · rw [transAllocJ_call_of_lt hjx hlt] at h
        rcases List.mem_cons.mp h with h | h
        · subst h; left; rfl
        · right
          have := allocSeg_res_bounds i' h
          have hge : moduleBound M ≤ allocBase M j' := by
            unfold allocBase; omega
          omega
      · rw [transAllocJ_of_not_lt hjx hlt] at h
        simp only [List.mem_singleton] at h
        subst h
        left; rfl

theorem transAllocJ_succ_of_ne {M : Module} {as j : Nat} {i : Instr}
    (hne : allocIdx M i.res ≠ some j) :
    transAllocJ M as (j + 1) i = transAllocJ M as j i := by
  cases hC : i.isCall with
  | false =>
    have hgen : ∀ jj, transAllocJ M as jj i = [i] := by
      intro jj
      unfold transAllocJ
      cases hjx : allocIdx M i.res
      · rfl
      · cases i <;> simp_all [Instr.isCall]
    rw [hgen, hgen]
  | true =>
    obtain ⟨res, c, args, T, dbg, ats, rfl⟩ := isCall_shape hC
    cases hjx : allocIdx M (Instr.call res c args T dbg ats).res with
    | none =>
      rw [transAllocJ_of_none hjx, transAllocJ_of_none hjx]
    | some j' =>
      have hj' : j' ≠ j := by
        intro he
        exact hne (he ▸ hjx)
      rw [show (Instr.call res c args T dbg ats).res = res from rfl] at hjx
      by_cases hlt : j' < j
      · rw [transAllocJ_call_of_lt hjx hlt,
          transAllocJ_call_of_lt hjx (by omega)]
      · rw [transAllocJ_of_not_lt hjx hlt,
          transAllocJ_of_not_lt hjx (by omega)]

/-! ## The alloc rewrite step -/

theorem getVMS_allocJ {dl : DataLayout} {lm : List (Nat × String)}
    {as : Nat} {M : Module} {j : Nat} :
    get_verifier_make_nondet (moduleAllocJ dl lm as M j)
      (!(calls_to_replace M).isEmpty || (j != 0)) =
    ({ funcs := (funcsNondetK dl lm M (calls_to_replace M).length).map
          (transAF M as j) ++ appendAllocJ M (j + 1),
       globals := (moduleAllocJ dl lm as M j).globals }, true) := by
  cases hE : (calls_to_replace M).isEmpty with
  | false =>
    unfold get_verifier_make_nondet
    simp only [hE, Bool.not_false, Bool.true_or, if_true, Prod.mk.injEq]
    refine ⟨?_, trivial⟩
    have h1 : appendAllocJ M j = [] := by simp [appendAllocJ, hE]
    have h2 : appendAllocJ M (j + 1) = [] := by simp [appendAllocJ, hE]
    simp [moduleAllocJ, funcsAllocJ, transAF, h1, h2]
  | true =>
    have hN0 : calls_to_replace M = [] := List.isEmpty_iff.mp hE
    cases j with
    | zero =>
      have hk : hasKlee (moduleAllocJ dl lm as M 0) = hasKlee M := by
        unfold hasKlee moduleAllocJ funcsAllocJ funcsNondetK
        have ha0 : appendAllocJ M 0 = [] := by simp [appendAllocJ]
        have hn0 : appendNondetK M (calls_to_replace M).length = [] := by
          rw [hN0]
          simp [appendNondetK]
        rw [ha0, hn0, List.append_nil, List.append_nil, List.map_map,
          List.any_map]
        rfl
      unfold get_verifier_make_nondet
      simp only [hE, Bool.not_true, Bool.false_or, show ((0 : Nat) != 0) = false
        from rfl, Bool.false_eq_true, if_false, hk]
      by_cases hK : hasKlee M = true
      · simp only [hK, if_true, Prod.mk.injEq]
        refine ⟨?_, trivial⟩
        have h1 : appendAllocJ M 0 = [] := by simp [appendAllocJ]
        have h2 : appendAllocJ M 1 = [] := by simp [appendAllocJ, hK]
        simp [moduleAllocJ, funcsAllocJ, transAF, h1, h2]
      · rw [Bool.not_eq_true] at hK
        simp only [hK, Bool.false_eq_true, if_false, Prod.mk.injEq]
        refine ⟨?_, trivial⟩
        have h1 : appendAllocJ M 0 = [] := by simp [appendAllocJ]
        have h2 : appendAllocJ M 1 = [kleeDecl] := by
          simp [appendAllocJ, hK, hE]
        simp [moduleAllocJ, funcsAllocJ, transAF, h1, h2]
    | succ j' =>
      unfold get_verifier_make_nondet
      simp only [hE, Bool.not_true, Bool.false_or,
        show ((j' + 1 : Nat) != 0) = true from by simp, if_true,
        Prod.mk.injEq]
      refine ⟨?_, trivial⟩
      have h12 : appendAllocJ M (j' + 1 + 1) = appendAllocJ M (j' + 1) := by
        simp [appendAllocJ]
      rw [h12]
      simp [moduleAllocJ, funcsAllocJ, transAF]

theorem handleAlloc_step {dl : DataLayout} {lm : List (Nat × String)}
    {as : Nat} {M : Module} (hwf : WF M) {j line r : Nat}
    {rest : List (Nat × Nat)}
    (hdrop : (allocs_to_handle M).drop j = (line, r) :: rest) :
    handleAlloc (stateAllocJ dl lm as M j) line "dynalloc" r =
      stateAllocJ dl lm as M (j + 1) := by
  have hndA : ((allocs_to_handle M).map Prod.snd).Nodup :=
    ((List.nodup_append.mp (worklists_res_nodup hwf)).2).1
  have hmem : (line, r) ∈ allocs_to_handle M := by
    rw [drop_allocs_decomp hdrop]
    exact List.mem_append_right _ (List.mem_cons_self _ _)
  obtain ⟨CI, hCIw, hCIres, hCIline⟩ := mem_allocs_to_handle hmem
  obtain ⟨hCIoccs, hCIcall⟩ := mem_of_mem_allocCallInstrs hCIw
  obtain ⟨res0, c0, args0, T0, dbg0, ats0, rfl⟩ := isCall_shape hCIcall
  have hres0 : r = res0 := hCIres.symm
  subst hres0
  obtain ⟨F₁, f, F₂, b₁, b₂, hFs, hbs, hb₁, hb₂, hF₁, hF₂⟩ :=
    occs_decomp hwf hCIoccs
  simp only [show (Instr.call r c0 args0 T0 dbg0 ats0).res = r from rfl]
    at hb₁ hb₂ hF₁ hF₂
  have hfmem : f ∈ M.funcs := by
    rw [hFs]; exact List.mem_append_right _ (List.mem_cons_self _ _)
  have hCIbody : Instr.call r c0 args0 T0 dbg0 ats0 ∈ f.body := by
    rw [hbs]; exact List.mem_append_right _ (List.mem_cons_self _ _)
  have hrf : r < moduleBound M := res_lt_bound hfmem hCIbody
  have hidxA : allocIdx M r = some j := allocIdx_eq_of_drop hdrop hndA
  have hidxN : nondetIdx M r = none :=
    nondetIdx_of_alloc_none hwf (List.mem_map.mpr ⟨(line, r), hmem, rfl⟩)
  have hparent : parentOf M r = f.name := by
    unfold parentOf
    rw [findInstr_eq_of hFs hbs hCIres (fun f' hf' => (hF₁ f' hf').1) hb₁]
  have hNCI : transNondetK dl lm M (calls_to_replace M).length f.name
      (Instr.call r c0 args0 T0 dbg0 ats0) =
      [Instr.call r c0 (args0.map (Value.mapReg
        (nondetSigmaK M (calls_to_replace M).length))) T0 dbg0 ats0] := by
    rw [transNondetK_of_none hidxN]
    rfl
  have hACI : transAllocJ M as j (Instr.call r c0 (args0.map (Value.mapReg
      (nondetSigmaK M (calls_to_replace M).length))) T0 dbg0 ats0) =
      [Instr.call r c0 (args0.map (Value.mapReg
        (nondetSigmaK M (calls_to_replace M).length))) T0 dbg0 ats0] :=
    transAllocJ_of_not_lt hidxA (Nat.lt_irrefl j)
  have hresNe2 : ∀ (b : List Instr) (fn : String), (∀ i0 ∈ b, i0.res ≠ r) →
      ∀ i' ∈ (b.flatMap (transNondetK dl lm M
          (calls_to_replace M).length fn)).flatMap (transAllocJ M as j),
        i'.res ≠ r := by
    intro b fn hb i' hi'
    obtain ⟨i1, hi1, hmem'⟩ := List.mem_flatMap.mp hi'
    obtain ⟨i0, hi0, hmem0⟩ := List.mem_flatMap.mp hi1
    rcases transAllocJ_res i' hmem' with he | hge
    · rcases transNondetK_res i1 hmem0 with he0 | hge0
      · rw [he, he0]; exact hb i0 hi0
      · omega
    · omega
  have hNe2 : ∀ (b : List Instr) (fn : String), (∀ i0 ∈ b, i0.res ≠ r) →
      ∀ i1 ∈ b.flatMap (transNondetK dl lm M (calls_to_replace M).length fn),
        allocIdx M i1.res ≠ some j := by
    intro b fn hb i1 hi1 hsome
    have heq : i1.res = r := res_eq_of_allocIdx_some hdrop hsome
    obtain ⟨i0, hi0, hm⟩ := List.mem_flatMap.mp hi1
    rcases transNondetK_res i1 hm with he | hge
    · exact hb i0 hi0 (he ▸ heq)
    · omega
  -- the body of the parent after both phases so far
  have hABody : (transAF M as j (transNF dl lm M
      (calls_to_replace M).length f)).body =
      ((b₁.flatMap (transNondetK dl lm M (calls_to_replace M).length
        f.name)).flatMap (transAllocJ M as j)) ++
      (Instr.call r c0 (args0.map (Value.mapReg
        (nondetSigmaK M (calls_to_replace M).length))) T0 dbg0 ats0 ::
       ((b₂.flatMap (transNondetK dl lm M (calls_to_replace M).length
        f.name)).flatMap (transAllocJ M as j))) := by
    show (f.body.flatMap (transNondetK dl lm M (calls_to_replace M).length
      f.name)).flatMap (transAllocJ M as j) = _
    rw [hbs]
    simp only [List.flatMap_append, List.flatMap_cons, List.flatMap_nil,
      List.append_nil, hNCI, hACI, List.singleton_append]
  have hFs' : (moduleAllocJ dl lm as M j).funcs =
      (F₁.map (fun f' => transAF M as j (transNF dl lm M
          (calls_to_replace M).length f'))) ++
      (transAF M as j (transNF dl lm M (calls_to_replace M).length f) ::
       ((F₂.map (fun f' => transAF M as j (transNF dl lm M
          (calls_to_replace M).length f'))) ++
        ((appendNondetK M (calls_to_replace M).length).map (transAF M as j) ++
          appendAllocJ M j))) := by
    show funcsAllocJ dl lm as M j = _
    have h0 : funcsAllocJ dl lm as M j =
        (funcsNondetK dl lm M (calls_to_replace M).length).map
          (transAF M as j) ++ appendAllocJ M j := rfl
    have h1 : funcsNondetK dl lm M (calls_to_replace M).length =
        M.funcs.map (transNF dl lm M (calls_to_replace M).length) ++
          appendNondetK M (calls_to_replace M).length := rfl
    rw [h0, h1, hFs]
    simp [List.map_append, List.map_cons, List.map_map, List.append_assoc,
      Function.comp_def]
  have hfind : findInstr (moduleAllocJ dl lm as M j) r =
      some (f.name, Instr.call r c0 (args0.map (Value.mapReg
        (nondetSigmaK M (calls_to_replace M).length))) T0 dbg0 ats0) := by
    refine @findInstr_eq_of (moduleAllocJ dl lm as M j)
      (F₁.map (fun f' => transAF M as j (transNF dl lm M
        (calls_to_replace M).length f')))
      ((F₂.map (fun f' => transAF M as j (transNF dl lm M
        (calls_to_replace M).length f'))) ++
        ((appendNondetK M (calls_to_replace M).length).map (transAF M as j) ++
          appendAllocJ M j))
      (transAF M as j (transNF dl lm M (calls_to_replace M).length f))
      ((b₁.flatMap (transNondetK dl lm M (calls_to_replace M).length
        f.name)).flatMap (transAllocJ M as j))
      ((b₂.flatMap (transNondetK dl lm M (calls_to_replace M).length
        f.name)).flatMap (transAllocJ M as j))
      (Instr.call r c0 (args0.map (Value.mapReg
        (nondetSigmaK M (calls_to_replace M).length))) T0 dbg0 ats0)
      r hFs' hABody rfl ?_ ?_
    · intro f' hf' i' hi'
      obtain ⟨f₁, hf₁, rfl⟩ := List.mem_map.mp hf'
      exact hresNe2 f₁.body f₁.name (fun i0 h0 => (hF₁ f₁ hf₁).1 i0 h0) i' hi'
    · exact hresNe2 b₁ f.name hb₁
  rw [handleAlloc_found hfind]
  simp only [stateAllocJ]
  rw [getVMS_allocJ]
  have hM1 : Module.mk
      ((funcsNondetK dl lm M (calls_to_replace M).length).map
        (transAF M as j) ++ appendAllocJ M (j + 1))
      (moduleAllocJ dl lm as M j).globals =
      Module.mk
        ((F₁.map (fun f' => transAF M as j (transNF dl lm M
            (calls_to_replace M).length f'))) ++
         (transAF M as j (transNF dl lm M (calls_to_replace M).length f) ::
          ((F₂.map (fun f' => transAF M as j (transNF dl lm M
            (calls_to_replace M).length f'))) ++
           ((appendNondetK M (calls_to_replace M).length).map
             (transAF M as j) ++ appendAllocJ M (j + 1)))))
        (moduleAllocJ dl lm as M j).globals := by
    have h1 : funcsNondetK dl lm M (calls_to_replace M).length =
        M.funcs.map (transNF dl lm M (calls_to_replace M).length) ++
          appendNondetK M (calls_to_replace M).length := rfl
    rw [h1, hFs]
    simp [List.map_append, List.map_cons, List.map_map, List.append_assoc,
      Function.comp_def]
  rw [hM1]
  have hkleeNe : hasKlee M = false → f.name ≠ "klee_make_nondet" :=
    fun hKf => name_ne_klee_of_not_hasKlee hKf hfmem
  have hL1 : ∀ f' ∈ F₁.map (fun f' => transAF M as j (transNF dl lm M
      (calls_to_replace M).length f')), f'.name ≠ f.name := by
    intro f' hf'
    obtain ⟨f₁, hf₁, rfl⟩ := List.mem_map.mp hf'
    exact (hF₁ f₁ hf₁).2
  have hL2 : ∀ f' ∈ (F₂.map (fun f' => transAF M as j (transNF dl lm M
      (calls_to_replace M).length f'))) ++
      ((appendNondetK M (calls_to_replace M).length).map (transAF M as j) ++
        appendAllocJ M (j + 1)), f'.name ≠ f.name := by
    intro f' hf'
    rcases List.mem_append.mp hf' with hf' | hf'
    · obtain ⟨f₂, hf₂, rfl⟩ := List.mem_map.mp hf'
      exact (hF₂ f₂ hf₂).2
    rcases List.mem_append.mp hf' with hf' | hf'
    · unfold appendNondetK at hf'
      by_cases hK : ((((calls_to_replace M).length : Nat) != 0)
          && !hasKlee M) = true
      · rw [if_pos hK] at hf'
        have hKf : hasKlee M = false := by
          rcases Bool.and_eq_true _ _ |>.mp hK with ⟨-, hnk⟩
          exact Bool.not_eq_true' .. |>.mp hnk
        simp only [List.map_cons, List.map_nil, List.mem_singleton] at hf'
        subst hf'
        exact fun he => (hkleeNe hKf) (he.symm ▸ rfl)
      · rw [if_neg hK] at hf'
        simp at hf'
    · unfold appendAllocJ at hf'
      by_cases hK : ((calls_to_replace M).isEmpty && ((j + 1 : Nat) != 0)
          && !hasKlee M) = true
      · rw [if_pos hK] at hf'
        have hKf : hasKlee M = false := by
          rcases Bool.and_eq_true _ _ |>.mp hK with ⟨-, hnk⟩
          exact Bool.not_eq_true' .. |>.mp hnk
        simp only [List.mem_singleton] at hf'
        subst hf'
        exact fun he => (hkleeNe hKf) (he.symm ▸ rfl)
      · rw [if_neg hK] at hf'
        cases hf'
  rw [editBody_decomp hL1 hL2 (show (transAF M as j (transNF dl lm M
    (calls_to_replace M).length f)).name = f.name from rfl)]
  have hrepl : replaceAt (fun i => i.res = r)
      (Instr.call r c0 (args0.map (Value.mapReg
        (nondetSigmaK M (calls_to_replace M).length))) T0 dbg0 ats0 ::
        allocSeg c0 (args0.map (Value.mapReg
          (nondetSigmaK M (calls_to_replace M).length))) r (allocBase M j)
          (as + j + 1))
      ((transAF M as j (transNF dl lm M (calls_to_replace M).length f)).body) =
      ((b₁.flatMap (transNondetK dl lm M (calls_to_replace M).length
        f.name)).flatMap (transAllocJ M as j)) ++
      ((Instr.call r c0 (args0.map (Value.mapReg
        (nondetSigmaK M (calls_to_replace M).length))) T0 dbg0 ats0 ::
        allocSeg c0 (args0.map (Value.mapReg
          (nondetSigmaK M (calls_to_replace M).length))) r (allocBase M j)
          (as + j + 1)) ++
       ((b₂.flatMap (transNondetK dl lm M (calls_to_replace M).length
        f.name)).flatMap (transAllocJ M as j))) := by
    rw [hABody]
    rw [replaceAt_append_left _ (fun x hx => by
      simp only [decide_eq_false_iff_not]
      exact hresNe2 b₁ f.name hb₁ x hx)]
    rw [replaceAt_cons_of (by simp [Instr.res])]
  have htransCI1 : transAllocJ M as (j + 1)
      (Instr.call r c0 (args0.map (Value.mapReg
        (nondetSigmaK M (calls_to_replace M).length))) T0 dbg0 ats0) =
      Instr.call r c0 (args0.map (Value.mapReg
        (nondetSigmaK M (calls_to_replace M).length))) T0 dbg0 ats0 ::
        allocSeg c0 (args0.map (Value.mapReg
          (nondetSigmaK M (calls_to_replace M).length))) r (allocBase M j)
          (as + j + 1) :=
    transAllocJ_call_of_lt hidxA (Nat.lt_succ_self j)
  have hAFsucc : ∀ (b : List Instr) (fn : String), (∀ i0 ∈ b, i0.res ≠ r) →
      (b.flatMap (transNondetK dl lm M (calls_to_replace M).length
        fn)).flatMap (transAllocJ M as (j + 1)) =
      (b.flatMap (transNondetK dl lm M (calls_to_replace M).length
        fn)).flatMap (transAllocJ M as j) := by
    intro b fn hb
    exact flatMap_congr (fun i1 hi1 =>
      transAllocJ_succ_of_ne (hNe2 b fn hb i1 hi1))
  congr 1
  · -- the module
    simp only [moduleAllocJ, Module.mk.injEq]
    constructor
    · -- function list
      show _ = funcsAllocJ dl lm as M (j + 1)
      have h0 : funcsAllocJ dl lm as M (j + 1) =
          (M.funcs.map (transNF dl lm M (calls_to_replace M).length) ++
            appendNondetK M (calls_to_replace M).length).map
            (transAF M as (j + 1)) ++ appendAllocJ M (j + 1) := rfl
      rw [h0, hFs]
      simp only [List.map_append, List.map_cons, List.map_map,
        List.cons_append, List.append_assoc]
      congr 1
      · apply List.map_congr_left
        intro f₁ hf₁
        simp only [Function.comp_apply]
        show transAF M as j (transNF dl lm M (calls_to_replace M).length f₁) =
          transAF M as (j + 1) (transNF dl lm M (calls_to_replace M).length f₁)
        unfold transAF
        simp only [Func.mk.injEq, true_and]
        exact (hAFsucc f₁.body f₁.name
          (fun i0 h0 => (hF₁ f₁ hf₁).1 i0 h0)).symm
      congr 1
      · show Func.mk f.name f.isDecl _ =
          transAF M as (j + 1) (transNF dl lm M (calls_to_replace M).length f)
        rw [show transAF M as (j + 1) (transNF dl lm M
            (calls_to_replace M).length f) =
          Func.mk f.name f.isDecl ((transAF M as (j + 1) (transNF dl lm M
            (calls_to_replace M).length f)).body) from rfl]
        simp only [Func.mk.injEq, true_and]
        rw [hrepl]
        show _ = (f.body.flatMap (transNondetK dl lm M
          (calls_to_replace M).length f.name)).flatMap (transAllocJ M as (j + 1))
        rw [hbs]
        simp only [List.flatMap_append, List.flatMap_cons, List.flatMap_nil,
          List.append_nil, hNCI, List.singleton_append]
        rw [htransCI1, hAFsucc b₁ f.name hb₁, hAFsucc b₂ f.name hb₂]
      congr 1
      · apply List.map_congr_left
        intro f₂ hf₂
        simp only [Function.comp_apply]
        show transAF M as j (transNF dl lm M (calls_to_replace M).length f₂) =
          transAF M as (j + 1) (transNF dl lm M (calls_to_replace M).length f₂)
        unfold transAF
        simp only [Func.mk.injEq, true_and]
        exact (hAFsucc f₂.body f₂.name
          (fun i0 h0 => (hF₂ f₂ hf₂).1 i0 h0)).symm
      · congr 1
        apply List.map_congr_left
        intro f' hf'
        unfold appendNondetK at hf'
        by_cases hK : ((((calls_to_replace M).length : Nat) != 0)
            && !hasKlee M) = true
        · rw [if_pos hK] at hf'
          simp only [List.mem_singleton] at hf'
          subst hf'
          rfl
        · rw [if_neg hK] at hf'
          cases hf'
    · -- globals
      show _ = M.globals ++ nondetGlobalsK lm M (calls_to_replace M).length ++
        allocGlobalsJ M (j + 1)
      rw [allocGlobalsJ_succ hdrop, hparent]
      simp [List.append_assoc]
  · simp

/-! ### Initial states and folding the rewrite loops -/

theorem nondetSigmaK_zero (M : Module) : nondetSigmaK M 0 = fun x => x := by
  funext x
  unfold nondetSigmaK
  cases h : nondetIdx M x with
  | none => rfl
  | some j => simp

theorem transNondetK_zero (dl : DataLayout) (lm : List (Nat × String))
    (M : Module) (fn : String) (i : Instr) :
    transNondetK dl lm M 0 fn i = [i] := by
  unfold transNondetK
  cases h : nondetIdx M i.res with
  | none => rw [nondetSigmaK_zero, Instr.mapReg_id]
  | some j => cases i <;> simp [nondetSigmaK_zero, Instr.mapReg_id]

theorem transAllocJ_zero (M : Module) (as : Nat) (i : Instr) :
    transAllocJ M as 0 i = [i] := by
  unfold transAllocJ
  cases h : allocIdx M i.res with
  | none => rfl
  | some j => cases i <;> simp

theorem funcsNondetK_zero (dl : DataLayout) (lm : List (Nat × String))
    (M : Module) : funcsNondetK dl lm M 0 = M.funcs := by
  unfold funcsNondetK appendNondetK
  simp only [bne_self_eq_false, Bool.false_and, if_false, List.append_nil]
  have h : ∀ f ∈ M.funcs,
      ({ f with body := f.body.flatMap (transNondetK dl lm M 0 f.name) } :
        Func) = f := by
    intro f _
    have hb : f.body.flatMap (transNondetK dl lm M 0 f.name) = f.body := by
      rw [flatMap_congr (fun i _ => transNondetK_zero dl lm M f.name i)]
      simp
    rw [hb]
  rw [List.map_congr_left h]
  simp

theorem stateNondetK_zero (dl : DataLayout) (lm : List (Nat × String))
    (as : Nat) (M : Module) :
    stateNondetK dl lm as M 0 =
      { M := M, call_identifier := 0, alloc_identifier := as, vms := false,
        fresh := moduleBound M } := by
  unfold stateNondetK moduleNondetK
  rw [funcsNondetK_zero]
  simp [nondetGlobalsK, nondetBase]

theorem stateAllocJ_zero (dl : DataLayout) (lm : List (Nat × String))
    (as : Nat) (M : Module) :
    stateAllocJ dl lm as M 0 =
      stateNondetK dl lm as M (calls_to_replace M).length := by
  unfold stateAllocJ stateNondetK moduleAllocJ moduleNondetK funcsAllocJ
  have h : ∀ f ∈ funcsNondetK dl lm M (calls_to_replace M).length,
      ({ f with body := f.body.flatMap (transAllocJ M as 0) } : Func) = f := by
    intro f _
    have hb : f.body.flatMap (transAllocJ M as 0) = f.body := by
      rw [flatMap_congr (fun i _ => transAllocJ_zero M as i)]
      simp
    rw [hb]
  rw [List.map_congr_left h]
  have hv : (!(calls_to_replace M).isEmpty || ((0 : Nat) != 0)) =
      (((calls_to_replace M).length : Nat) != 0) := by
    cases calls_to_replace M <;> rfl
  simp [appendAllocJ, allocGlobalsJ, allocBase, nondetBase, hv]
  cases calls_to_replace M <;> rfl

theorem replaceCalls_fold {dl : DataLayout} {lm : List (Nat × String)}
    {as : Nat} {M : Module} (hwf : WF M) :
    ∀ (todo : List (Nat × Nat)) (k : Nat),
      k + todo.length = (calls_to_replace M).length →
      (calls_to_replace M).drop k = todo →
      replaceCalls dl lm (stateNondetK dl lm as M k) todo =
        stateNondetK dl lm as M (calls_to_replace M).length
  | [], k, hk, _ => by
    have hkN : k = (calls_to_replace M).length := by simpa using hk
    show stateNondetK dl lm as M k = _
    rw [hkN]
  | (line, r) :: rest, k, hk, hdrop => by
    show replaceCalls dl lm (replaceCall dl (stateNondetK dl lm as M k) line
      (varOf lm line) r) rest = _
    rw [replaceCall_step hwf hdrop]
    refine replaceCalls_fold hwf rest (k + 1) ?_ ?_
    · simp only [List.length_cons] at hk
      omega
    · rw [← List.drop_drop 1 k, hdrop]
      rfl

theorem handleAllocs_fold {dl : DataLayout} {lm : List (Nat × String)}
    {as : Nat} {M : Module} (hwf : WF M) :
    ∀ (todo : List (Nat × Nat)) (j : Nat),
      j + todo.length = (allocs_to_handle M).length →
      (allocs_to_handle M).drop j = todo →
      handleAllocs (stateAllocJ dl lm as M j) todo =
        stateAllocJ dl lm as M (allocs_to_handle M).length
  | [], j, hj, _ => by
    have hjN : j = (allocs_to_handle M).length := by simpa using hj
    show stateAllocJ dl lm as M j = _
    rw [hjN]
  | (line, r) :: rest, j, hj, hdrop => by
    show handleAllocs (handleAlloc (stateAllocJ dl lm as M j) line
      "dynalloc" r) rest = _
    rw [handleAlloc_step hwf hdrop]
    refine handleAllocs_fold hwf rest (j + 1) ?_ ?_
    · simp only [List.length_cons] at hj
      omega
    · rw [← List.drop_drop 1 j, hdrop]
      rfl

/-- Master correspondence: on any well-formed module the pass equals its
closed-form description. -/
theorem runOnModule_eq_runSpec (dl : DataLayout) (fs : Option (List String))
    (srcName : String) (as : Nat) (M : Module) (hwf : WF M) :
    runOnModule dl fs srcName as M = runSpec dl fs srcName as M := by
  have hfin : ∀ lm, (handleAllocs (replaceCalls dl lm (initState as M)
      (calls_to_replace M)) (allocs_to_handle M)).M = specModule dl lm as M := by
    intro lm
    have h1 : replaceCalls dl lm (stateNondetK dl lm as M 0)
        (calls_to_replace M) =
        stateNondetK dl lm as M (calls_to_replace M).length :=
      replaceCalls_fold hwf (calls_to_replace M) 0 (by simp) (by simp)
    have h2 : handleAllocs (stateAllocJ dl lm as M 0) (allocs_to_handle M) =
        stateAllocJ dl lm as M (allocs_to_handle M).length :=
      handleAllocs_fold hwf (allocs_to_handle M) 0 (by simp) (by simp)
    rw [show initState as M = stateNondetK dl lm as M 0 from
      (stateNondetK_zero dl lm as M).symm]
    rw [h1, ← stateAllocJ_zero, h2]
    rfl
  show (match mapLines fs srcName (lines_nums M) (calls_to_replace M) with
    | .error e => .error e
    | .ok lm => Except.ok ((handleAllocs (replaceCalls dl lm (initState as M)
        (calls_to_replace M)) (allocs_to_handle M)).M,
        !(calls_to_replace M).isEmpty || !(allocs_to_handle M).isEmpty)) =
    runSpec dl fs srcName as M
  unfold runSpec
  cases mapLines fs srcName (lines_nums M) (calls_to_replace M) with
  | error e => rfl
  | ok lm =>
    show Except.ok ((handleAllocs (replaceCalls dl lm (initState as M)
        (calls_to_replace M)) (allocs_to_handle M)).M,
        !(calls_to_replace M).isEmpty || !(allocs_to_handle M).isEmpty) =
      Except.ok (specModule dl lm as M,
        !(calls_to_replace M).isEmpty || !(allocs_to_handle M).isEmpty)
    rw [hfin lm]

/-! ### Reading off the pass's result -/

theorem runOnModule_error {dl : DataLayout} {fs : Option (List String)}
    {src : String} {as : Nat} {M : Module} {e : PassError}
    (hml : mapLines fs src (lines_nums M) (calls_to_replace M) = .error e) :
    runOnModule dl fs src as M = .error e := by
  show (match mapLines fs src (lines_nums M) (calls_to_replace M) with
    | .error e => Except.error e
    | .ok lm => Except.ok ((handleAllocs (replaceCalls dl lm (initState as M)
        (calls_to_replace M)) (allocs_to_handle M)).M,
        !(calls_to_replace M).isEmpty || !(allocs_to_handle M).isEmpty)) =
    Except.error e
  rw [hml]

theorem runOnModule_congr_mapLines {dl : DataLayout}
    {fs fs' : Option (List String)} {src : String} {as : Nat} {M : Module}
    (h : mapLines fs src (lines_nums M) (calls_to_replace M) =
      mapLines fs' src (lines_nums M) (calls_to_replace M)) :
    runOnModule dl fs src as M = runOnModule dl fs' src as M := by
  show (match mapLines fs src (lines_nums M) (calls_to_replace M) with
    | .error e => Except.error e
    | .ok lm => Except.ok ((handleAllocs (replaceCalls dl lm (initState as M)
        (calls_to_replace M)) (allocs_to_handle M)).M,
        !(calls_to_replace M).isEmpty || !(allocs_to_handle M).isEmpty)) =
    (match mapLines fs' src (lines_nums M) (calls_to_replace M) with
    | .error e => Except.error e
    | .ok lm => Except.ok ((handleAllocs (replaceCalls dl lm (initState as M)
        (calls_to_replace M)) (allocs_to_handle M)).M,
        !(calls_to_replace M).isEmpty || !(allocs_to_handle M).isEmpty))
  rw [h]

theorem runOk_spec {dl : DataLayout} {fs : Option (List String)} {src : String}
    {as : Nat} {M M' : Module} {flag : Bool} (hwf : WF M)
    (hrun : runOnModule dl fs src as M = .ok (M', flag)) :
    ∃ lm, mapLines fs src (lines_nums M) (calls_to_replace M) = .ok lm ∧
      M' = specModule dl lm as M ∧
      flag = (!(calls_to_replace M).isEmpty ||
        !(allocs_to_handle M).isEmpty) := by
  rw [runOnModule_eq_runSpec dl fs src as M hwf] at hrun
  unfold runSpec at hrun
  cases hml : mapLines fs src (lines_nums M) (calls_to_replace M) with
  | error e =>
    rw [hml] at hrun
    cases hrun
  | ok lm =>
    rw [hml] at hrun
    refine ⟨lm, rfl, ?_, ?_⟩
    · injection hrun with h
      exact (congrArg Prod.fst h).symm
    · injection hrun with h
      exact (congrArg Prod.snd h).symm

/-! ### Membership in the closed-form result -/

theorem occs_specModule (dl : DataLayout) (lm : List (Nat × String))
    (as : Nat) (M : Module) :
    occs (specModule dl lm as M) =
      M.funcs.flatMap (fun f =>
        (f.body.flatMap (transNondetK dl lm M (calls_to_replace M).length
          f.name)).flatMap (transAllocJ M as (allocs_to_handle M).length)) := by
  show (specModule dl lm as M).funcs.flatMap Func.body = _
  have h0 : (specModule dl lm as M).funcs =
      (M.funcs.map (transNF dl lm M (calls_to_replace M).length) ++
        appendNondetK M (calls_to_replace M).length).map
        (transAF M as (allocs_to_handle M).length) ++
      appendAllocJ M (allocs_to_handle M).length := rfl
  rw [h0, List.flatMap_append, List.map_append, List.flatMap_append]
  have hN : ((appendNondetK M (calls_to_replace M).length).map
      (transAF M as (allocs_to_handle M).length)).flatMap Func.body = [] := by
    unfold appendNondetK
    by_cases h : ((((calls_to_replace M).length : Nat) != 0)
        && !hasKlee M) = true
    · rw [if_pos h]
      rfl
    · rw [if_neg h]
      rfl
  have hA : (appendAllocJ M (allocs_to_handle M).length).flatMap
      Func.body = [] := by
    unfold appendAllocJ
    by_cases h : ((calls_to_replace M).isEmpty
        && (((allocs_to_handle M).length : Nat) != 0) && !hasKlee M) = true
    · rw [if_pos h]
      rfl
    · rw [if_neg h]
      rfl
  rw [hN, hA, List.append_nil, List.append_nil, List.map_map,
    List.flatMap_map]
  rfl

theorem mem_occs_specModule {dl : DataLayout} {lm : List (Nat × String)}
    {as : Nat} {M : Module} {f : Func} {i i1 i2 : Instr}
    (hf : f ∈ M.funcs) (hi : i ∈ f.body)
    (h1 : i1 ∈ transNondetK dl lm M (calls_to_replace M).length f.name i)
    (h2 : i2 ∈ transAllocJ M as (allocs_to_handle M).length i1) :
    i2 ∈ occs (specModule dl lm as M) := by
  rw [occs_specModule]
  exact List.mem_flatMap.mpr ⟨f, hf, List.mem_flatMap.mpr
    ⟨i1, List.mem_flatMap.mpr ⟨i, hi, h1⟩, h2⟩⟩

/-! ### Small bookkeeping facts -/

theorem lt_length_of_drop {α : Type} {l : List α} {k : Nat} {e : α}
    {rest : List α} (h : l.drop k = e :: rest) : k < l.length := by
  by_contra hge
  rw [List.drop_eq_nil_of_le (by omega)] at h
  cases h

theorem mem_of_drop {α : Type} {l : List α} {k : Nat} {e : α}
    {rest : List α} (h : l.drop k = e :: rest) : e ∈ l := by
  have h2 : e ∈ l.drop k := by
    rw [h]
    exact List.mem_cons_self _ _
  exact List.mem_of_mem_drop h2

theorem occs_unique {M : Module} (hwf : WF M) {i i' : Instr}
    (h : i ∈ occs M) (h' : i' ∈ occs M) (he : i.res = i'.res) : i = i' :=
  List.inj_on_of_nodup_map hwf.1 h h' he

theorem nondet_entry_res_lt {M : Module} {line r : Nat}
    (h : (line, r) ∈ calls_to_replace M) : r < moduleBound M := by
  obtain ⟨CI, hCIw, hres, -⟩ := mem_calls_to_replace h
  obtain ⟨hoccs, -⟩ := mem_of_mem_nondetCallInstrs hCIw
  simp only [occs, List.mem_flatMap] at hoccs
  obtain ⟨f, hf, hib⟩ := hoccs
  exact hres ▸ res_lt_bound hf hib

theorem alloc_entry_res_lt {M : Module} {line r : Nat}
    (h : (line, r) ∈ allocs_to_handle M) : r < moduleBound M := by
  obtain ⟨CI, hCIw, hres, -⟩ := mem_allocs_to_handle h
  obtain ⟨hoccs, -⟩ := mem_of_mem_allocCallInstrs hCIw
  simp only [occs, List.mem_flatMap] at hoccs
  obtain ⟨f, hf, hib⟩ := hoccs
  exact hres ▸ res_lt_bound hf hib

theorem allocIdx_none_of_ge {M : Module} {x : Nat}
    (h : moduleBound M ≤ x) : allocIdx M x = none := by
  unfold allocIdx
  rw [List.findIdx?_eq_none_iff]
  intro e he
  simp only [decide_eq_false_iff_not]
  intro heq
  have hm : (e.1, e.2) ∈ allocs_to_handle M := by simpa using he
  have := alloc_entry_res_lt hm
  omega

theorem nondetIdx_none_of_ge {M : Module} {x : Nat}
    (h : moduleBound M ≤ x) : nondetIdx M x = none := by
  unfold nondetIdx
  rw [List.findIdx?_eq_none_iff]
  intro e he
  simp only [decide_eq_false_iff_not]
  intro heq
  have hm : (e.1, e.2) ∈ calls_to_replace M := by simpa using he
  have := nondet_entry_res_lt hm
  omega

theorem self_mem_transAllocJ (M : Module) (as j : Nat) (i : Instr) :
    i ∈ transAllocJ M as j i := by
  cases hjx : allocIdx M i.res with
  | none =>
    rw [transAllocJ_of_none hjx]
    exact List.mem_singleton_self i
  | some j' =>
    cases hC : i.isCall with
    | false =>
      have hi : transAllocJ M as j i = [i] := by
        unfold transAllocJ
        cases i <;> simp_all [Instr.isCall]
      rw [hi]
      exact List.mem_singleton_self i
    | true =>
      obtain ⟨res, c, args, T, dbg, ats, rfl⟩ := isCall_shape hC
      rw [show (Instr.call res c args T dbg ats).res = res from rfl] at hjx
      by_cases hlt : j' < j
      · rw [transAllocJ_call_of_lt hjx hlt]
        exact List.mem_cons_self _ _
      · rw [transAllocJ_of_not_lt hjx hlt]
        exact List.mem_singleton_self _

theorem transAllocJ_of_ge {M : Module} {as j : Nat} {i : Instr}
    (h : moduleBound M ≤ i.res) : transAllocJ M as j i = [i] :=
  transAllocJ_of_none (allocIdx_none_of_ge h)

theorem Instr.operands_mapReg (σ : Nat → Nat) (i : Instr) :
    (i.mapReg σ).operands = i.operands.map (Value.mapReg σ) := by
  cases i <;> rfl

theorem readsReg_mapReg {σ : Nat → Nat} {r : Nat} {i : Instr}
    (h : readsReg r i) : readsReg (σ r) (i.mapReg σ) := by
  unfold readsReg at *
  rw [Instr.operands_mapReg]
  exact List.mem_map.mpr ⟨.reg r, h, rfl⟩

theorem nondetSigma_at {M : Module} {k line r : Nat}
    {rest : List (Nat × Nat)}
    (hdrop : (calls_to_replace M).drop k = (line, r) :: rest)
    (hnd : ((calls_to_replace M).map Prod.snd).Nodup) :
    nondetSigma M r = nondetBase M k + 4 := by
  have hidx := nondetIdx_eq_of_drop hdrop hnd
  have hk : k < (calls_to_replace M).length := lt_length_of_drop hdrop
  unfold nondetSigma nondetSigmaK
  rw [hidx]
  simp [hk]

theorem nondetSigma_of_none {M : Module} {r : Nat}
    (h : nondetIdx M r = none) : nondetSigma M r = r := by
  unfold nondetSigma nondetSigmaK
  rw [h]

theorem surviving_mem (dl : DataLayout) (lm : List (Nat × String))
    (as : Nat) {M : Module} {f : Func} {i : Instr}
    (hf : f ∈ M.funcs) (hi : i ∈ f.body)
    (hN : nondetIdx M i.res = none) :
    Instr.mapReg (nondetSigma M) i ∈ occs (specModule dl lm as M) := by
  refine mem_occs_specModule hf hi ?_
    (self_mem_transAllocJ M as (allocs_to_handle M).length _)
  rw [transNondetK_of_none hN]
  exact List.mem_singleton_self _

/-! ### The shape of one rewritten site in the final module -/

theorem spec_res_ne (dl : DataLayout) (lm : List (Nat × String))
    (as : Nat) {M : Module} (hwf : WF M) {k line r : Nat}
    {rest : List (Nat × Nat)}
    (hdrop : (calls_to_replace M).drop k = (line, r) :: rest) :
    ∀ i' ∈ occs (specModule dl lm as M), i'.res ≠ r := by
  intro i' hi' heq
  have hmem : (line, r) ∈ calls_to_replace M := mem_of_drop hdrop
  have hrb : r < moduleBound M := nondet_entry_res_lt hmem
  have hnd : ((calls_to_replace M).map Prod.snd).Nodup :=
    (List.nodup_append.mp (worklists_res_nodup hwf)).1
  have hidx : nondetIdx M r = some k := nondetIdx_eq_of_drop hdrop hnd
  have hk : k < (calls_to_replace M).length := lt_length_of_drop hdrop
  obtain ⟨CI, hCIw, hCIres, -⟩ := mem_calls_to_replace hmem
  obtain ⟨hCIoccs, hCIcall⟩ := mem_of_mem_nondetCallInstrs hCIw
  rw [occs_specModule] at hi'
  obtain ⟨f, hf, hi2⟩ := List.mem_flatMap.mp hi'
  obtain ⟨i1, hi1, hmem1⟩ := List.mem_flatMap.mp hi2
  obtain ⟨i0, hi0, hmem0⟩ := List.mem_flatMap.mp hi1
  rcases transAllocJ_res i' hmem1 with he1 | hge1
  · rcases transNondetK_res i1 hmem0 with he0 | hge0
    · have hres0 : i0.res = r := by omega
      have hi0CI : i0 = CI :=
        occs_unique hwf (mem_occs hf hi0) hCIoccs (by rw [hres0, hCIres])
      obtain ⟨res0, c0, args0, T0, dbg0, ats0, rfl⟩ := isCall_shape hCIcall
      subst hi0CI
      rw [show (Instr.call res0 c0 args0 T0 dbg0 ats0).res = res0 from rfl]
        at hres0
      subst hres0
      rw [transNondetK_call_of_lt hidx hk] at hmem0
      have := nondetSeg_res_bounds i1 hmem0
      have hgb : moduleBound M ≤ nondetBase M k := by
        unfold nondetBase
        omega
      omega
    · omega
  · omega

theorem nondet_site_body (dl : DataLayout) (lm : List (Nat × String))
    (as : Nat) {M : Module} (hwf : WF M) {k line r : Nat}
    {rest : List (Nat × Nat)}
    (hdrop : (calls_to_replace M).drop k = (line, r) :: rest)
    {parent c : String} {args : List Value} {T : Ty} {dbg : Option Nat}
    {ats : List String}
    (hfind : findInstr M r = some (parent, Instr.call r c args T dbg ats)) :
    dbg.getD 0 = line ∧
    ∃ f' ∈ (specModule dl lm as M).funcs, f'.name = parent ∧
      ∃ pre post, f'.body = pre ++
        (nondetSeg dl T ats dbg (mkName parent (varOf lm line) line)
          (nondetBase M k) (k + 1) ++ post) := by
  have hmem : (line, r) ∈ calls_to_replace M := mem_of_drop hdrop
  have hnd : ((calls_to_replace M).map Prod.snd).Nodup :=
    (List.nodup_append.mp (worklists_res_nodup hwf)).1
  have hidx : nondetIdx M r = some k := nondetIdx_eq_of_drop hdrop hnd
  have hk : k < (calls_to_replace M).length := lt_length_of_drop hdrop
  obtain ⟨CI, hCIw, hCIres, hCIline⟩ := mem_calls_to_replace hmem
  obtain ⟨hCIoccs, hCIcall⟩ := mem_of_mem_nondetCallInstrs hCIw
  obtain ⟨res0, c0, args0, T0, dbg0, ats0, rfl⟩ := isCall_shape hCIcall
  have hres0 : r = res0 := hCIres.symm
  subst hres0
  obtain ⟨F₁, f, F₂, b₁, b₂, hFs, hbs, hb₁, hb₂, hF₁, hF₂⟩ :=
    occs_decomp hwf hCIoccs
  simp only [show (Instr.call r c0 args0 T0 dbg0 ats0).res = r from rfl]
    at hb₁ hb₂ hF₁ hF₂
  have hfi : findInstr M r = some (f.name, Instr.call r c0 args0 T0 dbg0 ats0) :=
    findInstr_eq_of hFs hbs hCIres (fun f' hf' => (hF₁ f' hf').1) hb₁
  have heq2 := hfind.symm.trans hfi
  injection heq2 with heq2
  injection heq2 with hp hc
  subst hp
  injection hc with hc1 hc2 hc3 hc4 hc5 hc6
  subst hc2
  subst hc3
  subst hc4
  subst hc5
  subst hc6
  have hfmem : f ∈ M.funcs := by
    rw [hFs]
    exact List.mem_append_right _ (List.mem_cons_self _ _)
  have hline : dbg.getD 0 = line := by
    simpa [Instr.dbg] using hCIline
  refine ⟨hline, transAF M as (allocs_to_handle M).length
    (transNF dl lm M (calls_to_replace M).length f), ?_, rfl, ?_⟩
  · have h0 : (specModule dl lm as M).funcs =
        (M.funcs.map (transNF dl lm M (calls_to_replace M).length) ++
          appendNondetK M (calls_to_replace M).length).map
          (transAF M as (allocs_to_handle M).length) ++
        appendAllocJ M (allocs_to_handle M).length := rfl
    rw [h0]
    exact List.mem_append_left _ (List.mem_map_of_mem _
      (List.mem_append_left _ (List.mem_map_of_mem _ hfmem)))
  · refine ⟨(b₁.flatMap (transNondetK dl lm M (calls_to_replace M).length
      f.name)).flatMap (transAllocJ M as (allocs_to_handle M).length),
      (b₂.flatMap (transNondetK dl lm M (calls_to_replace M).length
      f.name)).flatMap (transAllocJ M as (allocs_to_handle M).length), ?_⟩
    show (f.body.flatMap (transNondetK dl lm M (calls_to_replace M).length
      f.name)).flatMap (transAllocJ M as (allocs_to_handle M).length) = _
    rw [hbs]
    have hNCI : transNondetK dl lm M (calls_to_replace M).length f.name
        (Instr.call r c args T dbg ats) =
        nondetSeg dl T ats dbg
          (mkName f.name (varOf lm line) line) (nondetBase M k) (k + 1) := by
      rw [transNondetK_call_of_lt hidx hk, hline]
    have hseg : (nondetSeg dl T ats dbg
        (mkName f.name (varOf lm line) line) (nondetBase M k)
        (k + 1)).flatMap (transAllocJ M as (allocs_to_handle M).length) =
        nondetSeg dl T ats dbg (mkName f.name (varOf lm line) line)
          (nondetBase M k) (k + 1) := by
      rw [flatMap_congr (fun i' hi' => transAllocJ_of_ge
        (le_trans (by unfold nondetBase; omega)
          (nondetSeg_res_bounds i' hi').1))]
      simp
    simp only [List.flatMap_append, List.flatMap_cons, hNCI,
      List.flatMap_nil, List.append_nil, hseg]

theorem alloc_site_body (dl : DataLayout) (lm : List (Nat × String))
    (as : Nat) {M : Module} (hwf : WF M) {j line r : Nat}
    {rest : List (Nat × Nat)}
    (hdrop : (allocs_to_handle M).drop j = (line, r) :: rest)
    {parent c : String} {args : List Value} {T : Ty} {dbg : Option Nat}
    {ats : List String}
    (hfind : findInstr M r = some (parent, Instr.call r c args T dbg ats)) :
    ∃ f' ∈ (specModule dl lm as M).funcs, f'.name = parent ∧
      ∃ pre post, f'.body = pre ++
        (Instr.call r c (args.map (Value.mapReg (nondetSigma M))) T dbg ats ::
          (allocSeg c (args.map (Value.mapReg (nondetSigma M))) r
            (allocBase M j) (as + j + 1) ++ post)) := by
  have hmem : (line, r) ∈ allocs_to_handle M := mem_of_drop hdrop
  have hndA : ((allocs_to_handle M).map Prod.snd).Nodup :=
    ((List.nodup_append.mp (worklists_res_nodup hwf)).2).1
  have hidxA : allocIdx M r = some j := allocIdx_eq_of_drop hdrop hndA
  have hj : j < (allocs_to_handle M).length := lt_length_of_drop hdrop
  have hidxN : nondetIdx M r = none :=
    nondetIdx_of_alloc_none hwf (List.mem_map.mpr ⟨(line, r), hmem, rfl⟩)
  obtain ⟨CI, hCIw, hCIres, hCIline⟩ := mem_allocs_to_handle hmem
  obtain ⟨hCIoccs, hCIcall⟩ := mem_of_mem_allocCallInstrs hCIw
  obtain ⟨res0, c0, args0, T0, dbg0, ats0, rfl⟩ := isCall_shape hCIcall
  have hres0 : r = res0 := hCIres.symm
  subst hres0
  obtain ⟨F₁, f, F₂, b₁, b₂, hFs, hbs, hb₁, hb₂, hF₁, hF₂⟩ :=
    occs_decomp hwf hCIoccs
  simp only [show (Instr.call r c0 args0 T0 dbg0 ats0).res = r from rfl]
    at hb₁ hb₂ hF₁ hF₂
  have hfi : findInstr M r = some (f.name, Instr.call r c0 args0 T0 dbg0 ats0) :=
    findInstr_eq_of hFs hbs hCIres (fun f' hf' => (hF₁ f' hf').1) hb₁
  have heq2 := hfind.symm.trans hfi
  injection heq2 with heq2
  injection heq2 with hp hc
  subst hp
  injection hc with hc1 hc2 hc3 hc4 hc5 hc6
  subst hc2
  subst hc3
  subst hc4
  subst hc5
  subst hc6
  have hfmem : f ∈ M.funcs := by
    rw [hFs]
    exact List.mem_append_right _ (List.mem_cons_self _ _)
  refine ⟨transAF M as (allocs_to_handle M).length
    (transNF dl lm M (calls_to_replace M).length f), ?_, rfl, ?_⟩
  · have h0 : (specModule dl lm as M).funcs =
        (M.funcs.map (transNF dl lm M (calls_to_replace M).length) ++
          appendNondetK M (calls_to_replace M).length).map
          (transAF M as (allocs_to_handle M).length) ++
        appendAllocJ M (allocs_to_handle M).length := rfl
    rw [h0]
    exact List.mem_append_left _ (List.mem_map_of_mem _
      (List.mem_append_left _ (List.mem_map_of_mem _ hfmem)))
  · refine ⟨(b₁.flatMap (transNondetK dl lm M (calls_to_replace M).length
      f.name)).flatMap (transAllocJ M as (allocs_to_handle M).length),
      (b₂.flatMap (transNondetK dl lm M (calls_to_replace M).length
      f.name)).flatMap (transAllocJ M as (allocs_to_handle M).length), ?_⟩
    show (f.body.flatMap (transNondetK dl lm M (calls_to_replace M).length
      f.name)).flatMap (transAllocJ M as (allocs_to_handle M).length) = _
    rw [hbs]
    have hNCI : transNondetK dl lm M (calls_to_replace M).length f.name
        (Instr.call r c args T dbg ats) =
        [Instr.call r c (args.map (Value.mapReg (nondetSigma M))) T dbg ats] := by
      rw [transNondetK_of_none hidxN]
      rfl
    have hACI : transAllocJ M as (allocs_to_handle M).length
        (Instr.call r c (args.map (Value.mapReg (nondetSigma M))) T dbg ats) =
        Instr.call r c (args.map (Value.mapReg (nondetSigma M))) T dbg ats ::
          allocSeg c (args.map (Value.mapReg (nondetSigma M))) r
            (allocBase M j) (as + j + 1) :=
      transAllocJ_call_of_lt hidxA hj
    simp only [List.flatMap_append, List.flatMap_cons, hNCI, hACI,
      List.flatMap_nil, List.append_nil, List.nil_append,
      List.singleton_append, List.cons_append, List.append_assoc]

theorem allocSeg_one_call (c : String) (margs : List Value)
    (r base ident : Nat) :
    (allocSeg c margs r base ident).countP Instr.isCall = 1 := by
  by_cases hc : c = "calloc" <;>
    simp [allocSeg, hc, List.countP_cons, Instr.isCall]

theorem allocSeg_no_mul {c : String} {margs : List Value} {r base ident : Nat}
    (hc : ¬ c = "calloc") :
    ∀ i ∈ allocSeg c margs r base ident, i.isMul = false := by
  intro i hi
  simp only [allocSeg, hc, if_false, List.nil_append, List.mem_cons,
    List.not_mem_nil, or_false] at hi
  rcases hi with h | h <;> subst h <;> rfl

/-! ### Analysis of the variable-name heuristic -/

theorem empty_not_mem_tokensGo :
    ∀ (l cur : List Char), "" ∈ tokensGo l cur → False := by
  intro l
  induction l with
  | nil =>
    intro cur h
    unfold tokensGo at h
    by_cases hc : cur = []
    · simp [hc] at h
    · simp only [hc, if_false, List.mem_singleton] at h
      have h2 := congrArg String.data h
      simp at h2
      exact hc h2
  | cons ch rest ih =>
    intro cur h
    unfold tokensGo at h
    by_cases hw : ch.isWhitespace = true
    · rw [if_pos hw] at h
      by_cases hc : cur = []
      · rw [if_pos hc] at h
        exact ih [] h
      · rw [if_neg hc] at h
        rcases List.mem_cons.mp h with he | hm
        · have h2 := congrArg String.data he
          simp at h2
          exact hc h2
        · exact ih [] hm
    · rw [if_neg hw] at h
      exact ih (ch :: cur) h

theorem empty_not_mem_tokens (s : String) : "" ∉ tokens s :=
  fun h => empty_not_mem_tokensGo s.data [] h

theorem getNameGo_cases : ∀ (ts : List String) (var : String), "" ∉ ts →
    (getNameGo ts var = "--" ∧
      ∀ pre w post, ts = pre ++ "=" :: w :: post → "=" ∉ pre →
        strStartsWith w "__VERIFIER_nondet_" = true → pre = [] ∧ var = "") ∨
    (∃ pre w post, ts = pre ++ "=" :: w :: post ∧ "=" ∉ pre ∧
      strStartsWith w "__VERIFIER_nondet_" = true ∧
      ((pre = [] ∧ var ≠ "" ∧ getNameGo ts var = var) ∨
       pre.getLast? = some (getNameGo ts var))) := by
  intro ts
  induction ts with
  | nil =>
    intro var _
    left
    refine ⟨rfl, ?_⟩
    intro pre w post heq
    cases pre <;> simp at heq
  | cons t rest ih =>
    intro var hts
    have htne : t ≠ "" := by
      intro he
      exact hts (he ▸ List.mem_cons_self _ _)
    have hrest : "" ∉ rest := fun hm => hts (List.mem_cons_of_mem _ hm)
    by_cases ht : t = "="
    · subst ht
      by_cases hv : var = ""
      · subst hv
        left
        refine ⟨by simp [getNameGo], ?_⟩
        intro pre w post heq hnepre _
        cases pre with
        | nil => exact ⟨rfl, rfl⟩
        | cons p pre' =>
          rw [List.cons_append] at heq
          injection heq with h1 _
          exact absurd (h1 ▸ List.mem_cons_self p pre') hnepre
      · cases hrestc : rest with
        | nil =>
          left
          refine ⟨by simp [getNameGo, hv], ?_⟩
          intro pre w post heq hnepre _
          cases pre with
          | nil =>
            injection heq with _ h2
            cases h2
          | cons p pre' =>
            rw [List.cons_append] at heq
            injection heq with h1 _
            exact absurd (h1 ▸ List.mem_cons_self p pre') hnepre
        | cons w post0 =>
          by_cases hw : strStartsWith w "__VERIFIER_nondet_" = true
          · right
            refine ⟨[], w, post0, rfl, by simp, hw,
              Or.inl ⟨rfl, hv, ?_⟩⟩
            simp [getNameGo, hv, hw]
          · left
            refine ⟨by simp [getNameGo, hv, hw], ?_⟩
            intro pre w' post' heq hnepre hsw
            cases pre with
            | nil =>
              injection heq with _ h2
              injection h2 with h3 _
              exact absurd (h3 ▸ hsw) hw
            | cons p pre' =>
              rw [List.cons_append] at heq
              injection heq with h1 _
              exact absurd (h1 ▸ List.mem_cons_self p pre') hnepre
    · have hgo : getNameGo (t :: rest) var = getNameGo rest t := by
        simp [getNameGo, ht]
      rcases ih t hrest with ⟨heq, hcond⟩ | ⟨pre', w, post, hdec, hne, hsw, hca⟩
      · left
        refine ⟨by rw [hgo]; exact heq, ?_⟩
        intro pre w post hdec hnepre hsw
        cases pre with
        | nil =>
          injection hdec with h1 _
          exact absurd h1 ht
        | cons p pre' =>
          rw [List.cons_append] at hdec
          injection hdec with h1 h2
          have := hcond pre' w post h2
            (fun hm => hnepre (List.mem_cons_of_mem _ hm)) hsw
          exact absurd this.2 htne
      · right
        refine ⟨t :: pre', w, post, ?_, ?_, hsw, Or.inr ?_⟩
        · rw [List.cons_append, hdec]
        · intro hm
          rcases List.mem_cons.mp hm with he | hm'
          · exact ht he.symm
          · exact hne hm'
        · rw [hgo]
          rcases hca with ⟨hpe, htne', heq⟩ | hlast
          · subst hpe
            rw [heq]
            rfl
          · cases pre' with
            | nil => simp at hlast
            | cons q qre => rw [List.getLast?_cons_cons]; exact hlast

theorem getName_dichotomy (s : String) :
    (∃ v, recognizedAssign (tokens s) v ∧ getName s = v) ∨
    (getName s = "--" ∧ ∀ v, ¬ recognizedAssign (tokens s) v) := by
  rcases getNameGo_cases (tokens s) "" (empty_not_mem_tokens s) with
    ⟨heq, hcond⟩ | ⟨pre, w, post, hts, hne, hsw, hca⟩
  · right
    refine ⟨heq, ?_⟩
    rintro v ⟨pre, w, post, hdec, hnepre, hprene, hsw, -⟩
    exact hprene (hcond pre w post hdec hnepre hsw).1
  · left
    rcases hca with ⟨-, hvne, -⟩ | hlast
    · exact absurd rfl hvne
    · refine ⟨getNameGo (tokens s) "",
        ⟨pre, w, post, hts, hne, ?_, hsw, hlast⟩, rfl⟩
      intro hpe
      subst hpe
      simp at hlast

/-! # The claims -/

/-- C1: for every collected nondet call site (the `k`-th worklist entry,
whose call instruction `findInstr` locates), a successful pass run removes
the original call — no instruction of the output carries its result identity
`r` — and introduces a stack slot (`alloca`) of the call's result type `T`
together with a load from that slot; every original instruction that is not
itself a replaced nondet call survives with its result intact, and if it read
`r` it now reads the new load's result. -/
theorem C1_nondet_call_replaced {dl : DataLayout} {fs : Option (List String)}
    {src : String} {as : Nat} {M M' : Module} {flag : Bool}
    {k line r : Nat} {rest : List (Nat × Nat)} {parent c : String}
    {args : List Value} {T : Ty} {dbg : Option Nat} {ats : List String}
    (hwf : WF M)
    (hrun : runOnModule dl fs src as M = .ok (M', flag))
    (hdrop : (calls_to_replace M).drop k = (line, r) :: rest)
    (hfind : findInstr M r = some (parent, Instr.call r c args T dbg ats)) :
    (∀ i' ∈ occs M', i'.res ≠ r) ∧
    Instr.alloca (nondetBase M k + 1) T ∈ occs M' ∧
    (∃ nm, Instr.load (nondetBase M k + 4) (nondetBase M k + 1) nm
      ∈ occs M') ∧
    (∀ i ∈ occs M, nondetIdx M i.res = none →
      Instr.mapReg (nondetSigma M) i ∈ occs M' ∧
      (Instr.mapReg (nondetSigma M) i).res = i.res ∧
      (readsReg r i → readsReg (nondetBase M k + 4)
        (Instr.mapReg (nondetSigma M) i))) := by
  obtain ⟨lm, hml, hM', -⟩ := runOk_spec hwf hrun
  subst hM'
  have hnd : ((calls_to_replace M).map Prod.snd).Nodup :=
    (List.nodup_append.mp (worklists_res_nodup hwf)).1
  obtain ⟨hline, f', hf', hfname, pre, post, hbody⟩ :=
    nondet_site_body dl lm as hwf hdrop hfind
  refine ⟨spec_res_ne dl lm as hwf hdrop, ?_, ?_, ?_⟩
  · apply mem_occs hf'
    rw [hbody]
    refine List.mem_append_right _ (List.mem_append_left _ ?_)
    exact List.mem_cons_self _ _
  · refine ⟨mkName parent (varOf lm line) line, ?_⟩
    apply mem_occs hf'
    rw [hbody]
    refine List.mem_append_right _ (List.mem_append_left _ ?_)
    exact List.mem_cons_of_mem _ (List.mem_cons_of_mem _
      (List.mem_cons_of_mem _ (List.mem_cons_self _ _)))
  · intro i hi hnone
    simp only [occs, List.mem_flatMap] at hi
    obtain ⟨f, hf, hib⟩ := hi
    refine ⟨surviving_mem dl lm as hf hib hnone, Instr.res_mapReg _ _, ?_⟩
    intro hr
    have h2 : readsReg (nondetSigma M r) (i.mapReg (nondetSigma M)) :=
      readsReg_mapReg hr
    rwa [nondetSigma_at hdrop hnd] at h2

/-- C1 witness: on `wmNondet` the collected nondet call (result identity 1,
line 10) is removed and replaced as claimed. -/
theorem C1_witness : WF wmNondet ∧
    ((∀ i' ∈ occs outNondet, i'.res ≠ 1) ∧
     Instr.alloca (nondetBase wmNondet 0 + 1) Ty.i32 ∈ occs outNondet ∧
     (∃ nm, Instr.load (nondetBase wmNondet 0 + 4) (nondetBase wmNondet 0 + 1)
        nm ∈ occs outNondet) ∧
     (∀ i ∈ occs wmNondet, nondetIdx wmNondet i.res = none →
       Instr.mapReg (nondetSigma wmNondet) i ∈ occs outNondet ∧
       (Instr.mapReg (nondetSigma wmNondet) i).res = i.res ∧
       (readsReg 1 i → readsReg (nondetBase wmNondet 0 + 4)
         (Instr.mapReg (nondetSigma wmNondet) i)))) :=
  ⟨by decide, C1_nondet_call_replaced (by decide)
    (show runOnModule dl0 wfsNondet "t.c" 0 wmNondet = .ok (outNondet, true)
      from rfl)
    (show (calls_to_replace wmNondet).drop 0 = (10, 1) :: [] from rfl)
    (show findInstr wmNondet 1 = some ("foo", Instr.call 1
      "__VERIFIER_nondet_int" [] Ty.i32 (some 10) ["zeroext"]) from rfl)⟩

/-- C2 (amended): the multiply feeding the registered byte count is inserted
only when the collected allocation callee is named exactly `"calloc"`; every
other collected allocation site — including a two-argument callee whose name
merely starts with an allocation prefix — passes its (renamed) first argument
to the registration call unchanged, and its inserted sequence holds no
multiply at all. -/
theorem C2_registered_size {dl : DataLayout} {fs : Option (List String)}
    {src : String} {as : Nat} {M M' : Module} {flag : Bool}
    {j line r : Nat} {rest : List (Nat × Nat)} {parent c : String}
    {args : List Value} {T : Ty} {dbg : Option Nat} {ats : List String}
    (hwf : WF M)
    (hrun : runOnModule dl fs src as M = .ok (M', flag))
    (hdrop : (allocs_to_handle M).drop j = (line, r) :: rest)
    (hfind : findInstr M r = some (parent, Instr.call r c args T dbg ats)) :
    (c = "calloc" →
      Instr.mul (allocBase M j + 1)
        ((args.map (Value.mapReg (nondetSigma M))).getD 0 (.intConst .i32 0))
        ((args.map (Value.mapReg (nondetSigma M))).getD 1 (.intConst .i32 0))
        ∈ occs M' ∧
      Instr.call (allocBase M j + 3) "klee_make_nondet"
        [.reg (allocBase M j + 2), .reg (allocBase M j + 1),
         .globalPtr (allocBase M j), .intConst .i32 (as + j + 1)]
        .void none [] ∈ occs M') ∧
    (¬ c = "calloc" →
      Instr.call (allocBase M j + 3) "klee_make_nondet"
        [.reg (allocBase M j + 2),
         (args.map (Value.mapReg (nondetSigma M))).getD 0 (.intConst .i32 0),
         .globalPtr (allocBase M j), .intConst .i32 (as + j + 1)]
        .void none [] ∈ occs M' ∧
      ∀ i ∈ allocSeg c (args.map (Value.mapReg (nondetSigma M))) r
        (allocBase M j) (as + j + 1), i.isMul = false) := by
  obtain ⟨lm, hml, hM', -⟩ := runOk_spec hwf hrun
  subst hM'
  obtain ⟨f', hf', hfname, pre, post, hbody⟩ :=
    alloc_site_body dl lm as hwf hdrop hfind
  constructor
  · intro hc
    constructor
    · apply mem_occs hf'
      rw [hbody]
      refine List.mem_append_right _ (List.mem_cons_of_mem _
        (List.mem_append_left _ ?_))
      simp [allocSeg, hc]
    · apply mem_occs hf'
      rw [hbody]
      refine List.mem_append_right _ (List.mem_cons_of_mem _
        (List.mem_append_left _ ?_))
      simp [allocSeg, hc]
  · intro hc
    refine ⟨?_, allocSeg_no_mul hc⟩
    apply mem_occs hf'
    rw [hbody]
    refine List.mem_append_right _ (List.mem_cons_of_mem _
      (List.mem_append_left _ ?_))
    simp [allocSeg, hc]

/-- C2 witness: on `wmMixed` the `calloc` site (result identity 2, line 30)
receives a multiply of its two (renamed) arguments and registers its result. -/
theorem C2_witness : WF wmMixed ∧
    ((("calloc" : String) = "calloc" →
      Instr.mul (allocBase wmMixed 1 + 1)
        (([Value.reg 5, Value.intConst Ty.i64 8].map
          (Value.mapReg (nondetSigma wmMixed))).getD 0 (.intConst .i32 0))
        (([Value.reg 5, Value.intConst Ty.i64 8].map
          (Value.mapReg (nondetSigma wmMixed))).getD 1 (.intConst .i32 0))
        ∈ occs outMixed ∧
      Instr.call (allocBase wmMixed 1 + 3) "klee_make_nondet"
        [.reg (allocBase wmMixed 1 + 2), .reg (allocBase wmMixed 1 + 1),
         .globalPtr (allocBase wmMixed 1), .intConst .i32 (0 + 1 + 1)]
        .void none [] ∈ occs outMixed) ∧
    (¬ ("calloc" : String) = "calloc" →
      Instr.call (allocBase wmMixed 1 + 3) "klee_make_nondet"
        [.reg (allocBase wmMixed 1 + 2),
         ([Value.reg 5, Value.intConst Ty.i64 8].map
          (Value.mapReg (nondetSigma wmMixed))).getD 0 (.intConst .i32 0),
         .globalPtr (allocBase wmMixed 1), .intConst .i32 (0 + 1 + 1)]
        .void none [] ∈ occs outMixed ∧
      ∀ i ∈ allocSeg "calloc" ([Value.reg 5, Value.intConst Ty.i64 8].map
        (Value.mapReg (nondetSigma wmMixed))) 2
        (allocBase wmMixed 1) (0 + 1 + 1), i.isMul = false)) :=
  ⟨by decide, C2_registered_size (by decide)
    (show runOnModule dl0 wfsMixed "m.c" 0 wmMixed = .ok (outMixed, true)
      from rfl)
    (show (allocs_to_handle wmMixed).drop 1 = (30, 2) :: [] from rfl)
    (show findInstr wmMixed 2 = some ("bar", Instr.call 2 "calloc"
      [Value.reg 5, Value.intConst Ty.i64 8] Ty.i8ptr (some 30) [])
      from rfl)⟩

/-- C2 counterexample: `wmCallocPrefix` declares `callocX`, a two-argument
callee matched by the `calloc` name prefix but not named exactly `calloc`;
the pass succeeds, inserts no multiply anywhere in the output, and registers
the call's first original argument `3` (not the product `15`) as the byte
count. -/
theorem C2_cex_prefix_not_multiplied :
    runOnModule dl0 none "p.c" 0 wmCallocPrefix =
      .ok (outCallocPrefix, true) ∧
    (∀ i ∈ occs outCallocPrefix, i.isMul = false) ∧
    Instr.call (moduleBound wmCallocPrefix + 3) "klee_make_nondet"
      [.reg (moduleBound wmCallocPrefix + 2), .intConst .i32 3,
       .globalPtr (moduleBound wmCallocPrefix), .intConst .i32 1]
      .void none [] ∈ occs outCallocPrefix :=
  ⟨rfl, by decide, by decide⟩

/-- C3: the `k`-th collected nondet site rewritten by the pass registers its
symbolic object with identifier `k + 1`: across one invocation the
identifiers form exactly the contiguous run `1..N` in rewrite order. -/
theorem C3_identifier_run {dl : DataLayout} {fs : Option (List String)}
    {src : String} {as : Nat} {M M' : Module} {flag : Bool}
    {k line r : Nat} {rest : List (Nat × Nat)} {parent c : String}
    {args : List Value} {T : Ty} {dbg : Option Nat} {ats : List String}
    (hwf : WF M)
    (hrun : runOnModule dl fs src as M = .ok (M', flag))
    (hdrop : (calls_to_replace M).drop k = (line, r) :: rest)
    (hfind : findInstr M r = some (parent, Instr.call r c args T dbg ats)) :
    Instr.call (nondetBase M k + 3) "klee_make_nondet"
      [.reg (nondetBase M k + 2), .intConst (get_size_t dl) (dl.allocSize T),
       .globalPtr (nondetBase M k), .intConst .i32 (k + 1)] .void dbg ats
      ∈ occs M' := by
  obtain ⟨lm, hml, hM', -⟩ := runOk_spec hwf hrun
  subst hM'
  obtain ⟨hline, f', hf', hfname, pre, post, hbody⟩ :=
    nondet_site_body dl lm as hwf hdrop hfind
  apply mem_occs hf'
  rw [hbody]
  refine List.mem_append_right _ (List.mem_append_left _ ?_)
  exact List.mem_cons_of_mem _ (List.mem_cons_of_mem _
    (List.mem_cons_self _ _))

/-- C3 witness: the first (and only) nondet site of `wmNondet` registers with
identifier 1. -/
theorem C3_witness : WF wmNondet ∧
    Instr.call (nondetBase wmNondet 0 + 3) "klee_make_nondet"
      [.reg (nondetBase wmNondet 0 + 2),
       .intConst (get_size_t dl0) (dl0.allocSize Ty.i32),
       .globalPtr (nondetBase wmNondet 0), .intConst .i32 (0 + 1)]
      .void (some 10) ["zeroext"] ∈ occs outNondet :=
  ⟨by decide, C3_identifier_run (by decide)
    (show runOnModule dl0 wfsNondet "t.c" 0 wmNondet = .ok (outNondet, true)
      from rfl)
    (show (calls_to_replace wmNondet).drop 0 = (10, 1) :: [] from rfl)
    (show findInstr wmNondet 1 = some ("foo", Instr.call 1
      "__VERIFIER_nondet_int" [] Ty.i32 (some 10) ["zeroext"]) from rfl)⟩

/-- C4: every collected allocation call survives the pass in place — same
result identity, callee, type, debug location and attributes, its arguments
renamed only by the nondet phase's use-redirection — its result is still read
by the surviving readers (no use of it is redirected), and the inserted
sequence right after it holds exactly one registration call. -/
theorem C4_alloc_call_preserved {dl : DataLayout} {fs : Option (List String)}
    {src : String} {as : Nat} {M M' : Module} {flag : Bool}
    {j line r : Nat} {rest : List (Nat × Nat)} {parent c : String}
    {args : List Value} {T : Ty} {dbg : Option Nat} {ats : List String}
    (hwf : WF M)
    (hrun : runOnModule dl fs src as M = .ok (M', flag))
    (hdrop : (allocs_to_handle M).drop j = (line, r) :: rest)
    (hfind : findInstr M r = some (parent, Instr.call r c args T dbg ats)) :
    Instr.call r c (args.map (Value.mapReg (nondetSigma M))) T dbg ats
      ∈ occs M' ∧
    (∀ i ∈ occs M, nondetIdx M i.res = none → readsReg r i →
      Instr.mapReg (nondetSigma M) i ∈ occs M' ∧
      readsReg r (Instr.mapReg (nondetSigma M) i)) ∧
    (∃ f' ∈ M'.funcs, f'.name = parent ∧ ∃ pre post,
      f'.body = pre ++
        (Instr.call r c (args.map (Value.mapReg (nondetSigma M))) T dbg ats ::
          (allocSeg c (args.map (Value.mapReg (nondetSigma M))) r
            (allocBase M j) (as + j + 1) ++ post))) ∧
    (allocSeg c (args.map (Value.mapReg (nondetSigma M))) r (allocBase M j)
      (as + j + 1)).countP Instr.isCall = 1 := by
  obtain ⟨lm, hml, hM', -⟩ := runOk_spec hwf hrun
  subst hM'
  obtain ⟨f', hf', hfname, pre, post, hbody⟩ :=
    alloc_site_body dl lm as hwf hdrop hfind
  have hidxN : nondetIdx M r = none :=
    nondetIdx_of_alloc_none hwf
      (List.mem_map.mpr ⟨(line, r), mem_of_drop hdrop, rfl⟩)
  refine ⟨?_, ?_, ⟨f', hf', hfname, pre, post, hbody⟩,
    allocSeg_one_call _ _ _ _ _⟩
  · apply mem_occs hf'
    rw [hbody]
    exact List.mem_append_right _ (List.mem_cons_self _ _)
  · intro i hi hnone hr
    simp only [occs, List.mem_flatMap] at hi
    obtain ⟨f, hf, hib⟩ := hi
    refine ⟨surviving_mem dl lm as hf hib hnone, ?_⟩
    have h2 : readsReg (nondetSigma M r) (i.mapReg (nondetSigma M)) :=
      readsReg_mapReg hr
    rwa [nondetSigma_of_none hidxN] at h2

/-- C4 witness: on `wmMixed` the `malloc` call (result identity 1, line 20)
survives with its argument renamed to the new load, its reader keeps reading
it, and exactly one registration call is inserted after it. -/
theorem C4_witness : WF wmMixed ∧
    (Instr.call 1 "malloc" ([Value.reg 7].map
        (Value.mapReg (nondetSigma wmMixed))) Ty.i8ptr (some 20) []
      ∈ occs outMixed ∧
    (∀ i ∈ occs wmMixed, nondetIdx wmMixed i.res = none → readsReg 1 i →
      Instr.mapReg (nondetSigma wmMixed) i ∈ occs outMixed ∧
      readsReg 1 (Instr.mapReg (nondetSigma wmMixed) i)) ∧
    (∃ f' ∈ outMixed.funcs, f'.name = "bar" ∧ ∃ pre post,
      f'.body = pre ++
        (Instr.call 1 "malloc" ([Value.reg 7].map
          (Value.mapReg (nondetSigma wmMixed))) Ty.i8ptr (some 20) [] ::
          (allocSeg "malloc" ([Value.reg 7].map
            (Value.mapReg (nondetSigma wmMixed))) 1
            (allocBase wmMixed 0) (0 + 0 + 1) ++ post))) ∧
    (allocSeg "malloc" ([Value.reg 7].map
      (Value.mapReg (nondetSigma wmMixed))) 1 (allocBase wmMixed 0)
      (0 + 0 + 1)).countP Instr.isCall = 1) :=
  ⟨by decide, C4_alloc_call_preserved (by decide)
    (show runOnModule dl0 wfsMixed "m.c" 0 wmMixed = .ok (outMixed, true)
      from rfl)
    (show (allocs_to_handle wmMixed).drop 0 = (20, 1) :: [(30, 2)] from rfl)
    (show findInstr wmMixed 1 = some ("bar", Instr.call 1 "malloc"
      [Value.reg 7] Ty.i8ptr (some 20) []) from rfl)⟩

/-- C5 (amended): the configured source file matters only when some
collected site carries a debug line.  When `lines_nums` is non-empty, an
unopenable path aborts the pass with a diagnostic naming it, before any
rewriting; when `lines_nums` is empty the file is never consulted, so the
pass's outcome is the same for every state of the file system — in
particular an unopenable path then causes no abort of its own. -/
theorem C5_unreadable_source (dl : DataLayout) (src : String) (as : Nat)
    (M : Module) :
    (lines_nums M ≠ ∅ →
      runOnModule dl none src as M = .error (PassError.cantOpen src)) ∧
    (lines_nums M = ∅ → ∀ fs fs' : Option (List String),
      runOnModule dl fs src as M = runOnModule dl fs' src as M) := by
  constructor
  · intro h
    apply runOnModule_error
    unfold mapLines
    rw [if_neg h]
  · intro h fs fs'
    apply runOnModule_congr_mapLines
    unfold mapLines
    rw [if_pos h, if_pos h]

/-- C5 witness: `wmNondet` references line 10, so with an unopenable source
the pass aborts naming the path; `wmAllocNoLine` references no line, so its
run does not depend on the file system at all. -/
theorem C5_witness :
    runOnModule dl0 none "f.c" 0 wmNondet =
      .error (PassError.cantOpen "f.c") ∧
    runOnModule dl0 none "missing.c" 0 wmAllocNoLine =
      runOnModule dl0 wfsNondet "missing.c" 0 wmAllocNoLine :=
  ⟨(C5_unreadable_source dl0 "f.c" 0 wmNondet).1 (by decide),
   (C5_unreadable_source dl0 "missing.c" 0 wmAllocNoLine).2 (by decide)
     none wfsNondet⟩

/-- C5 counterexample: `wmAllocNoLine`'s only collected site carries no
debug line, so with the very same unopenable source the pass does NOT abort:
it succeeds and rewrites the module. -/
theorem C5_cex_no_abort_without_lines :
    runOnModule dl0 none "missing.c" 0 wmAllocNoLine =
      .ok (outAllocNoLine, true) ∧
    occs wmAllocNoLine ≠ occs outAllocNoLine :=
  ⟨rfl, by decide⟩

/-- C6: a module whose only collected site is a nondet call carrying no
debug line makes `mapLines` fail its `assert(calls_to_replace.empty())`
(source line 126): the pass aborts instead of rewriting the site, contrary
to the spec's promise that missing line information never blocks
instrumentation. -/
theorem C6_line0_nondet_aborts :
    calls_to_replace wmNoLine = [(0, 1)] ∧
    lines_nums wmNoLine = ∅ ∧
    runOnModule dl0 wfsNondet "s.c" 0 wmNoLine =
      .error (PassError.assertFail "calls_to_replace.empty()") :=
  ⟨rfl, by decide, rfl⟩

/-- C7: `getName` tokenizes the raw line on whitespace and returns the token
tracked right before an `"="` exactly when the recognized-assignment pattern
holds (a non-empty `"="`-free prefix whose last token it returns, with the
token after the `"="` carrying the nondet-stub name prefix); in every other
case it returns the placeholder `"--"`.  On the scenario line
`"int x = __VERIFIER_nondet_int();"` it extracts `"x"`, and running the pass
on `wmNondet` (that line at line 10 of function `foo`) creates the name
global `"foo:x:10"`. -/
theorem C7_variable_name_extractor :
    (∀ s, (∃ v, recognizedAssign (tokens s) v ∧ getName s = v) ∨
      (getName s = "--" ∧ ∀ v, ¬ recognizedAssign (tokens s) v)) ∧
    getName "int x = __VERIFIER_nondet_int();" = "x" ∧
    runOnModule dl0 wfsNondet "t.c" 0 wmNondet = .ok (outNondet, true) ∧
    (moduleBound wmNondet, "foo:x:10") ∈ outNondet.globals :=
  ⟨getName_dichotomy, by decide, rfl, by decide⟩

/-- C8 (amended): the variable segment of a nondet site's derived name is
the placeholder `"--"` when the recorded line is indexed in the `lines` map
but no assignment pattern is recognized in its text; it is the empty string
exactly when the recorded line is absent from the map (no debug line, or a
line the indexing never stored). -/
theorem C8_variable_segment (lm : List (Nat × String)) (line : Nat) :
    (lm.lookup line = none → varOf lm line = "") ∧
    ∀ txt, lm.lookup line = some txt →
      (∀ v, ¬ recognizedAssign (tokens txt) v) → varOf lm line = "--" := by
  constructor
  · intro h
    unfold varOf
    rw [h]
  · intro txt h hno
    unfold varOf
    rw [h]
    rcases getName_dichotomy txt with ⟨v, hrec, -⟩ | ⟨heq, -⟩
    · exact absurd hrec (hno v)
    · exact heq

/-- C8 counterexample: on `wmNoAssign` the referenced line 2 (`"foo();"`)
holds no recognizable assignment, yet the derived name global is
`"f:--:2"` — placeholder variable segment, not the empty string. -/
theorem C8_cex_placeholder_not_empty :
    runOnModule dl0 wfsNoAssign "n.c" 0 wmNoAssign =
      .ok (outNoAssign, true) ∧
    (∀ v, ¬ recognizedAssign (tokens "foo();") v) ∧
    (moduleBound wmNoAssign, "f:--:2") ∈ outNoAssign.globals ∧
    ∀ p ∈ outNoAssign.globals, p.2 ≠ "f::2" := by
  refine ⟨rfl, ?_, by decide, by decide⟩
  rintro v ⟨pre, w, post, hdec, -, -, -, -⟩
  have ht : tokens "foo();" = ["foo();"] := by decide
  rw [ht] at hdec
  cases pre with
  | nil =>
    injection hdec with h1 _
    exact absurd h1 (by decide)
  | cons p pre' =>
    rw [List.cons_append] at hdec
    injection hdec with _ h2
    cases pre' <;> simp at h2

/-- C9: a successful run introduces at most one new declaration named
`klee_make_nondet` into the module — none at all when one already exists,
in which case the module's function-name list is unchanged. -/
theorem C9_one_registration_decl {dl : DataLayout} {fs : Option (List String)}
    {src : String} {as : Nat} {M M' : Module} {flag : Bool}
    (hwf : WF M)
    (hrun : runOnModule dl fs src as M = .ok (M', flag)) :
    ((M'.funcs.map Func.name).count "klee_make_nondet" =
       (M.funcs.map Func.name).count "klee_make_nondet" ∨
     (M'.funcs.map Func.name).count "klee_make_nondet" =
       (M.funcs.map Func.name).count "klee_make_nondet" + 1) ∧
    (hasKlee M = true → M'.funcs.map Func.name = M.funcs.map Func.name) := by
  obtain ⟨lm, hml, hM', -⟩ := runOk_spec hwf hrun
  subst hM'
  have hnames : (specModule dl lm as M).funcs.map Func.name =
      M.funcs.map Func.name ++
      ((appendNondetK M (calls_to_replace M).length).map Func.name ++
       (appendAllocJ M (allocs_to_handle M).length).map Func.name) := by
    have h0 : (specModule dl lm as M).funcs =
        (M.funcs.map (transNF dl lm M (calls_to_replace M).length) ++
          appendNondetK M (calls_to_replace M).length).map
          (transAF M as (allocs_to_handle M).length) ++
        appendAllocJ M (allocs_to_handle M).length := rfl
    rw [h0]
    simp only [List.map_append, List.map_map, List.append_assoc]
    have e1 : List.map (Func.name ∘ transAF M as (allocs_to_handle M).length ∘
        transNF dl lm M (calls_to_replace M).length) M.funcs =
        List.map Func.name M.funcs :=
      List.map_congr_left (fun f _ => rfl)
    have e2 : List.map (Func.name ∘ transAF M as (allocs_to_handle M).length)
        (appendNondetK M (calls_to_replace M).length) =
        List.map Func.name (appendNondetK M (calls_to_replace M).length) :=
      List.map_congr_left (fun f _ => rfl)
    rw [e1, e2]
  rw [hnames, List.count_append]
  constructor
  · have hsuf : ((appendNondetK M (calls_to_replace M).length).map Func.name ++
        (appendAllocJ M (allocs_to_handle M).length).map Func.name).count
        "klee_make_nondet" = 0 ∨
        ((appendNondetK M (calls_to_replace M).length).map Func.name ++
        (appendAllocJ M (allocs_to_handle M).length).map Func.name).count
        "klee_make_nondet" = 1 := by
      unfold appendNondetK appendAllocJ
      by_cases h1 : ((((calls_to_replace M).length : Nat) != 0)
          && !hasKlee M) = true
      · rw [if_pos h1]
        have hne : (((calls_to_replace M).length : Nat) != 0) = true :=
          (Bool.and_eq_true _ _ |>.mp h1).1
        have hie : (calls_to_replace M).isEmpty = false := by
          cases hE : calls_to_replace M with
          | nil => rw [hE] at hne; simp at hne
          | cons a l => simp [hE]
        rw [if_neg (by simp [hie])]
        right
        rfl
      · rw [if_neg h1]
        by_cases h2 : ((calls_to_replace M).isEmpty
            && (((allocs_to_handle M).length : Nat) != 0) && !hasKlee M) = true
        · rw [if_pos h2]
          right
          rfl
        · rw [if_neg h2]
          left
          rfl
    rcases hsuf with h | h
    · left
      omega
    · right
      omega
  · intro hK
    have hN : appendNondetK M (calls_to_replace M).length = [] := by
      unfold appendNondetK
      rw [if_neg (by simp [hK])]
    have hA : appendAllocJ M (allocs_to_handle M).length = [] := by
      unfold appendAllocJ
      rw [if_neg (by simp [hK])]
    rw [hN, hA]
    simp

/-- C9 witness: `wmMixed` has no `klee_make_nondet` declaration; the run
introduces exactly one. -/
theorem C9_witness : WF wmMixed ∧
    (((outMixed.funcs.map Func.name).count "klee_make_nondet" =
        (wmMixed.funcs.map Func.name).count "klee_make_nondet" ∨
      (outMixed.funcs.map Func.name).count "klee_make_nondet" =
        (wmMixed.funcs.map Func.name).count "klee_make_nondet" + 1) ∧
     (hasKlee wmMixed = true →
       outMixed.funcs.map Func.name = wmMixed.funcs.map Func.name)) :=
  ⟨by decide, C9_one_registration_decl (by decide)
    (show runOnModule dl0 wfsMixed "m.c" 0 wmMixed = .ok (outMixed, true)
      from rfl)⟩

/-- C10: with the `static` counter of `handleAlloc` at its process-start
value 0, the first rewritten nondet site and the first rewritten allocation
site both register with identifier 1, through two distinct registration
calls: the two counters are independent, so identifiers are unique only
within a category. -/
theorem C10_counters_independent {dl : DataLayout} {fs : Option (List String)}
    {src : String} {M M' : Module} {flag : Bool}
    {lineN rN : Nat} {restN : List (Nat × Nat)} {parentN cN : String}
    {argsN : List Value} {TN : Ty} {dbgN : Option Nat} {atsN : List String}
    {lineA rA : Nat} {restA : List (Nat × Nat)} {parentA cA : String}
    {argsA : List Value} {TA : Ty} {dbgA : Option Nat} {atsA : List String}
    (hwf : WF M)
    (hrun : runOnModule dl fs src 0 M = .ok (M', flag))
    (hdropN : (calls_to_replace M).drop 0 = (lineN, rN) :: restN)
    (hfindN : findInstr M rN =
      some (parentN, Instr.call rN cN argsN TN dbgN atsN))
    (hdropA : (allocs_to_handle M).drop 0 = (lineA, rA) :: restA)
    (hfindA : findInstr M rA =
      some (parentA, Instr.call rA cA argsA TA dbgA atsA)) :
    Instr.call (nondetBase M 0 + 3) "klee_make_nondet"
      [.reg (nondetBase M 0 + 2), .intConst (get_size_t dl) (dl.allocSize TN),
       .globalPtr (nondetBase M 0), .intConst .i32 1] .void dbgN atsN
      ∈ occs M' ∧
    (∃ nb, Instr.call (allocBase M 0 + 3) "klee_make_nondet"
      [.reg (allocBase M 0 + 2), nb, .globalPtr (allocBase M 0),
       .intConst .i32 1] .void none [] ∈ occs M') ∧
    nondetBase M 0 + 3 ≠ allocBase M 0 + 3 := by
  obtain ⟨lm, hml, hM', -⟩ := runOk_spec hwf hrun
  subst hM'
  obtain ⟨hline, f', hf', hfn, pre, post, hbody⟩ :=
    nondet_site_body dl lm 0 hwf hdropN hfindN
  obtain ⟨g', hg', hgn, preA, postA, hbodyA⟩ :=
    alloc_site_body dl lm 0 hwf hdropA hfindA
  refine ⟨?_, ?_, ?_⟩
  · apply mem_occs hf'
    rw [hbody]
    refine List.mem_append_right _ (List.mem_append_left _ ?_)
    exact List.mem_cons_of_mem _ (List.mem_cons_of_mem _
      (List.mem_cons_self _ _))
  · refine ⟨if cA = "calloc" then Value.reg (allocBase M 0 + 1)
      else (argsA.map (Value.mapReg (nondetSigma M))).getD 0
        (.intConst .i32 0), ?_⟩
    apply mem_occs hg'
    rw [hbodyA]
    refine List.mem_append_right _ (List.mem_cons_of_mem _
      (List.mem_append_left _ ?_))
    exact List.mem_append_right _ (List.mem_cons_of_mem _
      (List.mem_cons_self _ _))
  · have h1 : 0 < (calls_to_replace M).length := lt_length_of_drop hdropN
    unfold nondetBase allocBase
    omega

/-- C10 witness: on `wmMixed` the first nondet site (identity 7) and the
first allocation site (identity 1) both register with identifier 1, at two
distinct registration calls. -/
theorem C10_witness : WF wmMixed ∧
    (Instr.call (nondetBase wmMixed 0 + 3) "klee_make_nondet"
      [.reg (nondetBase wmMixed 0 + 2),
       .intConst (get_size_t dl0) (dl0.allocSize Ty.i32),
       .globalPtr (nondetBase wmMixed 0), .intConst .i32 1] .void (some 5) []
      ∈ occs outMixed ∧
    (∃ nb, Instr.call (allocBase wmMixed 0 + 3) "klee_make_nondet"
      [.reg (allocBase wmMixed 0 + 2), nb, .globalPtr (allocBase wmMixed 0),
       .intConst .i32 1] .void none [] ∈ occs outMixed) ∧
    nondetBase wmMixed 0 + 3 ≠ allocBase wmMixed 0 + 3) :=
  ⟨by decide, C10_counters_independent (by decide)
    (show runOnModule dl0 wfsMixed "m.c" 0 wmMixed = .ok (outMixed, true)
      from rfl)
    (show (calls_to_replace wmMixed).drop 0 = (5, 7) :: [] from rfl)
    (show findInstr wmMixed 7 = some ("bar", Instr.call 7
      "__VERIFIER_nondet_uint" [] Ty.i32 (some 5) []) from rfl)
    (show (allocs_to_handle wmMixed).drop 0 = (20, 1) :: [(30, 2)] from rfl)
    (show findInstr wmMixed 1 = some ("bar", Instr.call 1 "malloc"
      [Value.reg 7] Ty.i8ptr (some 20) []) from rfl)⟩

end RVF
